import Mathlib

/-!
Shallow embedding of the midgard-yarn-strict core (node-dependency-graph and
local-package-store packages) and proofs about it.

JavaScript `Map`s are modelled as association lists with update-in-place
semantics (`mapGet` / `mapSet`), `Map` values that are sets of keys as
duplicate-free lists (`insertTgt` / `delTgt`), and JavaScript objects used as
string maps as association lists as well (object spread `{...o, [k]: v}` is
`mapSet o k v`).  A JavaScript runtime crash (calling a method on `undefined`)
is modelled by an `Option`-returning operation producing `none`.
-/

/-- `Map.get` : value stored at the first (unique) occurrence of the key. -/
def mapGet {κ β : Type} [DecidableEq κ] (m : List (κ × β)) (k : κ) : Option β :=
  match m with
  | [] => none
  | (k', v) :: rest => if k' = k then some v else mapGet rest k

/-- `Map.set` : update the entry for the key in place, or append a new entry. -/
def mapSet {κ β : Type} [DecidableEq κ] (m : List (κ × β)) (k : κ) (v : β) :
    List (κ × β) :=
  match m with
  | [] => [(k, v)]
  | (k', v') :: rest =>
    if k' = k then (k, v) :: rest else (k', v') :: mapSet rest k v

theorem mapGet_mapSet {κ β : Type} [DecidableEq κ] (m : List (κ × β)) (k k' : κ)
    (v : β) :
    mapGet (mapSet m k v) k' = if k = k' then some v else mapGet m k' := by
  induction m with
  | nil =>
    by_cases h : k = k' <;> simp [mapGet, mapSet, h]
  | cons p rest ih =>
    obtain ⟨pk, pv⟩ := p
    by_cases hpk : pk = k
    · subst hpk
      by_cases h : pk = k' <;> simp [mapGet, mapSet, h]
    · simp only [mapSet, if_neg hpk]
      by_cases h : pk = k'
      · have hk : ¬k = k' := fun hkk => hpk (h.trans hkk.symm)
        simp [mapGet, h, hk]
      · simp [mapGet, h, ih]

/-- Insertion into a `Map` used as a set of keys (`map.set(t, "link")`):
a no-op when present, appended otherwise. -/
def insertTgt (l : List Nat) (t : Nat) : List Nat :=
  if t ∈ l then l else l ++ [t]

/-- `Map.delete` on a `Map` used as a set of keys. -/
def delTgt (l : List Nat) (t : Nat) : List Nat :=
  l.filter (fun x => x ≠ t)

theorem mem_insertTgt (l : List Nat) (t x : Nat) :
    x ∈ insertTgt l t ↔ x ∈ l ∨ x = t := by
  unfold insertTgt
  by_cases h : t ∈ l
  · simp only [if_pos h]
    constructor
    · exact fun hx => Or.inl hx
    · rintro (hx | rfl) <;> assumption
  · simp [if_neg h]

theorem mem_delTgt (l : List Nat) (t x : Nat) :
    x ∈ delTgt l t ↔ x ∈ l ∧ x ≠ t := by
  simp [delTgt]

/-! ## The mutable dependency graph (node-dependency-graph/src/graph.ts) -/

/-- A pending peer link (`PeerLink` in graph.ts). -/
structure PeerLink where
  targetName : String
  targetRange : String
  optionalFlag : Bool
  deriving Repr, DecidableEq

/-- The per-id record kept in `reversedNodes`. -/
structure NodeRec where
  name : String
  version : String
  peerDeps : List (String × Nat)
  isLocal : Bool
  deriving Repr, DecidableEq

/-- An entry of the `nodes[name][version]` list. -/
structure IndexEntry where
  id : Nat
  peerDeps : List (String × Nat)
  isLocal : Bool
  deriving Repr, DecidableEq

/-- The `Graph` class of graph.ts.  `nodes` is the nested
name → version → entry-list index; the other fields mirror the JS fields. -/
structure Graph where
  nodes : List (String × List (String × List IndexEntry))
  reversedNodes : List (Nat × NodeRec)
  links : List (Nat × List Nat)
  reversedLinks : List (Nat × List Nat)
  nodeCounter : Nat
  peerLinks : List (Nat × List PeerLink)
  deriving Repr, DecidableEq

/-- `new Graph()`. -/
def Graph.empty : Graph :=
  { nodes := [], reversedNodes := [], links := [], reversedLinks := [],
    nodeCounter := 0, peerLinks := [] }

/-- Forward neighbours of `s` (`links.get(s)`, empty when absent). -/
def Graph.fwdTargets (g : Graph) (s : Nat) : List Nat :=
  (mapGet g.links s).getD []

/-- Reverse neighbours of `t` (`reversedLinks.get(t)`, empty when absent). -/
def Graph.revSources (g : Graph) (t : Nat) : List Nat :=
  (mapGet g.reversedLinks t).getD []

/-- `Graph.addNode`: allocates a fresh id and *overwrites* the
`nodes[name][version]` list with a single base entry. -/
def Graph.addNode (g : Graph) (name version : String) (isLocal : Bool) : Graph :=
  let id := g.nodeCounter
  let vmap := (mapGet g.nodes name).getD []
  { g with
    nodes := mapSet g.nodes name
      (mapSet vmap version [{ id := id, peerDeps := [], isLocal := isLocal }]),
    reversedNodes := mapSet g.reversedNodes id
      { name := name, version := version, peerDeps := [], isLocal := isLocal },
    nodeCounter := g.nodeCounter + 1 }

/-- `Graph.addLink`: set insertion into the forward and reverse indices. -/
def Graph.addLink (g : Graph) (source target : Nat) : Graph :=
  { g with
    links := mapSet g.links source (insertTgt (g.fwdTargets source) target),
    reversedLinks :=
      mapSet g.reversedLinks target (insertTgt (g.revSources target) source) }

/-- `Graph.addPeerLink`: appends to the source's pending list. -/
def Graph.addPeerLink (g : Graph) (sourceId : Nat) (targetName targetRange : String)
    (optionalFlag : Bool) : Graph :=
  { g with
    peerLinks := mapSet g.peerLinks sourceId
      ((mapGet g.peerLinks sourceId).getD [] ++
        [{ targetName := targetName, targetRange := targetRange,
           optionalFlag := optionalFlag }]) }

/-- `Graph.hasPeerLink`. -/
def Graph.hasPeerLink (g : Graph) (nodeId : Nat) : Bool :=
  match mapGet g.peerLinks nodeId with
  | none => false
  | some l => l.length ≠ 0

/-- `Graph.changeChildren`: rewires `parentId → oldChildId` to
`parentId → newChildId`.  `none` models the JS crash when `links.get(parentId)`
or `reversedLinks.get(oldChildId)` is undefined. -/
def Graph.changeChildren (g : Graph) (parentId oldChildId newChildId : Nat) :
    Option Graph := do
  let pl ← mapGet g.links parentId
  let links1 := mapSet g.links parentId (insertTgt (delTgt pl oldChildId) newChildId)
  let rl ← mapGet g.reversedLinks oldChildId
  let rev1 := mapSet g.reversedLinks oldChildId (delTgt rl parentId)
  let rev2 := mapSet rev1 newChildId (insertTgt ((mapGet rev1 newChildId).getD []) parentId)
  some { g with links := links1, reversedLinks := rev2 }

/-- `Graph.getNodeWithoutPeerDependencies`.  The outer `none` is the missing
name/version case (JS returns `undefined`); the inner `none` models the crash
when the list exists but holds no base node (`.find(...)!.id`). -/
def Graph.getNodeWithoutPeerDependencies (g : Graph) (name version : String) :
    Option (Option Nat) :=
  match mapGet g.nodes name with
  | none => some none
  | some vm =>
    match mapGet vm version with
    | none => some none
    | some list =>
      match list.find? (fun o => o.peerDeps.length = 0) with
      | none => none
      | some o => some (some o.id)

/-- The filter predicate of `Graph.getVirtualNode`: `o.peerDeps` has exactly one
more key than `peerDeps`, agrees with it on its keys, and maps
`fulfilledPeerDepName` to `fulfilledPeerDep`. -/
def virtualMatch (peerDeps : List (String × Nat)) (fulfilledPeerDepName : String)
    (fulfilledPeerDep : Nat) (o : IndexEntry) : Bool :=
  o.peerDeps.length = peerDeps.length + 1 &&
  peerDeps.all (fun pd => mapGet o.peerDeps pd.1 = mapGet peerDeps pd.1) &&
  mapGet o.peerDeps fulfilledPeerDepName = some fulfilledPeerDep

/-- `Graph.getVirtualNode`.  Outer `none` models the JS crash when the source id
or its `nodes[name][version]` list is missing; the inner option is the JS
return value (`undefined` when no matching virtual node exists). -/
def Graph.getVirtualNode (g : Graph) (sourceId : Nat)
    (fulfilledPeerDepName : String) (fulfilledPeerDep : Nat) :
    Option (Option Nat) := do
  let oldNode ← mapGet g.reversedNodes sourceId
  let vm ← mapGet g.nodes oldNode.name
  let list ← mapGet vm oldNode.version
  some ((list.find? (virtualMatch oldNode.peerDeps fulfilledPeerDepName
    fulfilledPeerDep)).map (·.id))

/-- `Graph.createVirtualNode`.  `none` models the JS crash when the source id or
its `nodes[name][version]` list is missing.  Returns the updated graph and the
new node id. -/
def Graph.createVirtualNode (g : Graph) (sourceId : Nat)
    (fulfilledPeerDepName : String) (fulfilledPeerDep : Nat) :
    Option (Graph × Nat) := do
  let oldNode ← mapGet g.reversedNodes sourceId
  let vm ← mapGet g.nodes oldNode.name
  let list ← mapGet vm oldNode.version
  let newNodeId := g.nodeCounter
  let newPeerDeps := mapSet oldNode.peerDeps fulfilledPeerDepName fulfilledPeerDep
  -- 1 creating the node
  let nodes1 := mapSet g.nodes oldNode.name (mapSet vm oldNode.version
    (list ++ [{ id := newNodeId, peerDeps := newPeerDeps, isLocal := oldNode.isLocal }]))
  let revNodes1 := mapSet g.reversedNodes newNodeId
    { name := oldNode.name, version := oldNode.version, peerDeps := newPeerDeps,
      isLocal := oldNode.isLocal }
  -- 2 duplicating links
  let newLinks := (mapGet g.links sourceId).getD []
  let links1 := mapSet g.links newNodeId newLinks
  -- 3 update reversedLinks
  let rev1 := newLinks.foldl
    (fun rl key => mapSet rl key (insertTgt ((mapGet rl key).getD []) newNodeId))
    g.reversedLinks
  -- 4 add resolved dep as link
  let links2 := mapSet links1 newNodeId (insertTgt newLinks fulfilledPeerDep)
  let rev2 := mapSet rev1 fulfilledPeerDep
    (insertTgt ((mapGet rev1 fulfilledPeerDep).getD []) newNodeId)
  -- 5 copy peerDeps from source
  let peerDepsToCopy := ((mapGet g.peerLinks sourceId).getD []).filter
    (fun o => o.targetName ≠ fulfilledPeerDepName)
  let peer1 := mapSet g.peerLinks newNodeId peerDepsToCopy
  some ({ g with
          nodes := nodes1
          reversedNodes := revNodes1
          links := links2
          reversedLinks := rev2
          peerLinks := peer1
          nodeCounter := g.nodeCounter + 1 }, newNodeId)

/-- One enriched pending peer link as enumerated by `Graph.getPeerLinks`. -/
structure EnrichedPeerLink where
  parentId : Nat
  sourceId : Nat
  targetName : String
  targetRange : String
  optionalFlag : Bool
  deriving Repr, DecidableEq

/-- The result tuples contributed by one `peerLinks` entry: one tuple per
(reverse-neighbour, pending peer link) pair. -/
def peerLinkGroup (g : Graph) (entry : Nat × List PeerLink) :
    List EnrichedPeerLink :=
  ((mapGet g.reversedLinks entry.1).getD []).flatMap (fun parent =>
    entry.2.map (fun peerLink =>
      { parentId := parent, sourceId := entry.1,
        targetName := peerLink.targetName,
        targetRange := peerLink.targetRange,
        optionalFlag := peerLink.optionalFlag }))

/-- The iteration of `Graph.getPeerLinks` over the `peerLinks` entries. -/
def getPeerLinksAux (g : Graph) : List (Nat × List PeerLink) →
    Option (List EnrichedPeerLink)
  | [] => some []
  | entry :: rest => do
    let nodeRec ← mapGet g.reversedNodes entry.1
    -- Ignores peer dependencies of root packages
    let chunk := if nodeRec.isLocal then [] else peerLinkGroup g entry
    let restRes ← getPeerLinksAux g rest
    pure (chunk ++ restRes)

/-- `Graph.getPeerLinks`: enumerates every (parent, source, peer-link) tuple,
skipping sources whose node is local.  `none` models the JS crash when a
`peerLinks` key has no `reversedNodes` record. -/
def Graph.getPeerLinks (g : Graph) : Option (List EnrichedPeerLink) :=
  getPeerLinksAux g g.peerLinks

/-! ## C5 : getPeerLinks never enumerates a local source -/

theorem getPeerLinksAux_mem (g : Graph) :
    ∀ (entries : List (Nat × List PeerLink)) (res : List EnrichedPeerLink),
      getPeerLinksAux g entries = some res →
      ∀ tup ∈ res, ∃ entry ∈ entries, ∃ r : NodeRec,
        mapGet g.reversedNodes entry.1 = some r ∧ r.isLocal = false ∧
        tup ∈ peerLinkGroup g entry := by
  intro entries
  induction entries with
  | nil =>
    intro res h tup htup
    simp only [getPeerLinksAux, Option.some.injEq] at h
    subst h
    simp at htup
  | cons entry rest ih =>
    intro res h tup htup
    simp only [getPeerLinksAux] at h
    cases hrec : mapGet g.reversedNodes entry.1 with
    | none => simp [hrec] at h
    | some r =>
      rw [hrec] at h
      cases hrest : getPeerLinksAux g rest with
      | none => simp [hrest] at h
      | some restRes =>
        rw [hrest] at h
        simp only [Option.bind_eq_bind, Option.some_bind, pure,
          Option.some.injEq] at h
        subst h
        rw [List.mem_append] at htup
        rcases htup with htup | htup
        · by_cases hloc : r.isLocal
          · simp [hloc] at htup
          · refine ⟨entry, List.mem_cons_self entry rest, r, hrec, by simpa using hloc, ?_⟩
            simpa [hloc] using htup
        · obtain ⟨e, he, r', hr', hloc', hmem⟩ := ih restRes hrest tup htup
          exact ⟨e, List.mem_cons_of_mem entry he, r', hr', hloc', hmem⟩

/-- C5: on every graph state on which `getPeerLinks` completes, no enumerated
tuple has a source node whose `isLocal` flag is true: pending peer links
registered on local nodes are excluded from the enumeration, so local manifests
with peer dependencies contribute no peer-induced resolution work. -/
theorem getPeerLinks_excludes_local_sources (g : Graph)
    (res : List EnrichedPeerLink) (h : g.getPeerLinks = some res) :
    ∀ tup ∈ res, ∃ r : NodeRec,
      mapGet g.reversedNodes tup.sourceId = some r ∧ r.isLocal = false := by
  intro tup htup
  obtain ⟨entry, _he, r, hrec, hloc, hmem⟩ :=
    getPeerLinksAux_mem g g.peerLinks res h tup htup
  have hsrc : tup.sourceId = entry.1 := by
    simp only [peerLinkGroup, List.mem_flatMap, List.mem_map] at hmem
    obtain ⟨parent, _hp, peerLink, _hpl, heq⟩ := hmem
    rw [← heq]
  rw [hsrc]
  exact ⟨r, hrec, hloc⟩

/-- A concrete graph with one local root, one remote package carrying a pending
peer link, and one regular link between them. -/
def c5Graph : Graph :=
  (((Graph.empty.addNode "A" "1.0.0" true).addNode "B" "1.0.0" false).addLink 0 1
    ).addPeerLink 1 "C" "*" false

/-- Witness for C5 at a concrete graph. -/
theorem getPeerLinks_excludes_local_sources_witness :
    c5Graph.getPeerLinks =
      some [{ parentId := 0, sourceId := 1, targetName := "C",
              targetRange := "*", optionalFlag := false }] ∧
    ∀ tup ∈ [({ parentId := 0, sourceId := 1, targetName := "C",
                targetRange := "*", optionalFlag := false } : EnrichedPeerLink)],
      ∃ r : NodeRec,
        mapGet c5Graph.reversedNodes tup.sourceId = some r ∧ r.isLocal = false :=
  ⟨by decide, getPeerLinks_excludes_local_sources c5Graph _ (by decide)⟩

/-! ## Link-index characterizations of the mutations -/

theorem insertTgt_idem (l : List Nat) (t : Nat) :
    insertTgt (insertTgt l t) t = insertTgt l t := by
  unfold insertTgt
  by_cases h : t ∈ l
  · simp [h]
  · simp [h]

theorem map_fst_mapSet {κ β : Type} [DecidableEq κ] (m : List (κ × β)) (k : κ)
    (v : β) :
    (mapSet m k v).map Prod.fst =
      if k ∈ m.map Prod.fst then m.map Prod.fst else m.map Prod.fst ++ [k] := by
  induction m with
  | nil => simp [mapSet]
  | cons p rest ih =>
    obtain ⟨pk, pv⟩ := p
    by_cases h : pk = k
    · subst h
      simp [mapSet]
    · simp only [mapSet, if_neg h, List.map_cons, ih]
      by_cases h2 : k ∈ rest.map Prod.fst
      · simp [h2, Ne.symm h]
      · simp [h2, Ne.symm h]

theorem length_mapSet {κ β : Type} [DecidableEq κ] (m : List (κ × β)) (k : κ)
    (v : β) :
    (mapSet m k v).length =
      if k ∈ m.map Prod.fst then m.length else m.length + 1 := by
  have h := map_fst_mapSet m k v
  by_cases hk : k ∈ m.map Prod.fst
  · rw [if_pos hk] at h
    have := congrArg List.length h
    rw [if_pos hk]
    simpa using this
  · rw [if_neg hk] at h
    have := congrArg List.length h
    simp only [List.length_map, List.length_append, List.length_cons,
      List.length_nil] at this
    rw [if_neg hk]
    simpa using this

theorem mapGet_eq_none {κ β : Type} [DecidableEq κ] (m : List (κ × β)) (k : κ) :
    mapGet m k = none ↔ k ∉ m.map Prod.fst := by
  induction m with
  | nil => simp [mapGet]
  | cons p rest ih =>
    obtain ⟨pk, pv⟩ := p
    by_cases h : pk = k
    · subst h
      simp [mapGet]
    · simp [mapGet, h, ih, Ne.symm h]

theorem nodup_keys_mapSet {κ β : Type} [DecidableEq κ] (m : List (κ × β)) (k : κ)
    (v : β) (h : (m.map Prod.fst).Nodup) :
    ((mapSet m k v).map Prod.fst).Nodup := by
  rw [map_fst_mapSet]
  by_cases hk : k ∈ m.map Prod.fst
  · simpa [hk] using h
  · simp only [if_neg hk]
    exact List.Nodup.append h (List.nodup_singleton k)
      (by simpa [List.disjoint_singleton] using hk)

/-- Forward/reverse link-index consistency (the §3 invariant "the reverse-link
index is kept consistent with the forward index"). -/
def LinkConsistent (g : Graph) : Prop :=
  ∀ s t : Nat, t ∈ g.fwdTargets s ↔ s ∈ g.revSources t

/-- All link endpoints are below the id counter. -/
def LinksBounded (g : Graph) : Prop :=
  ∀ s t : Nat, t ∈ g.fwdTargets s → s < g.nodeCounter ∧ t < g.nodeCounter

theorem fwdTargets_addLink (g : Graph) (s t a : Nat) :
    (g.addLink s t).fwdTargets a =
      if s = a then insertTgt (g.fwdTargets s) t else g.fwdTargets a := by
  unfold Graph.addLink Graph.fwdTargets
  simp only [mapGet_mapSet]
  split <;> rfl

theorem revSources_addLink (g : Graph) (s t b : Nat) :
    (g.addLink s t).revSources b =
      if t = b then insertTgt (g.revSources t) s else g.revSources b := by
  unfold Graph.addLink Graph.revSources
  simp only [mapGet_mapSet]
  split <;> rfl

theorem changeChildren_spec (g : Graph) (p o n : Nat) (g' : Graph)
    (hc : g.changeChildren p o n = some g') :
    (∀ a, g'.fwdTargets a =
        if p = a then insertTgt (delTgt (g.fwdTargets p) o) n
        else g.fwdTargets a) ∧
    (∀ b, g'.revSources b =
        (fun r1 => if n = b then insertTgt r1 p else r1)
        (if o = b then delTgt (g.revSources o) p else g.revSources b)) ∧
    g'.nodeCounter = g.nodeCounter ∧
    g'.nodes = g.nodes ∧ g'.reversedNodes = g.reversedNodes := by
  unfold Graph.changeChildren at hc
  cases hpl : mapGet g.links p with
  | none => rw [hpl] at hc; simp at hc
  | some pl =>
    rw [hpl] at hc
    cases hrl : mapGet g.reversedLinks o with
    | none => rw [hrl] at hc; simp at hc
    | some rl =>
      rw [hrl] at hc
      simp only [Option.bind_eq_bind, Option.some_bind, Option.some.injEq] at hc
      subst hc
      refine ⟨?_, ?_, rfl, rfl, rfl⟩
      · intro a
        show (mapGet (mapSet g.links p _) a).getD [] = _
        rw [mapGet_mapSet]
        split <;> simp [Graph.fwdTargets, hpl]
      · intro b
        show (mapGet (mapSet (mapSet g.reversedLinks o _) n _) b).getD [] = _
        rw [mapGet_mapSet]
        by_cases hnb : n = b
        · subst hnb
          rw [if_pos rfl, mapGet_mapSet]
          by_cases hon : o = n
          · subst hon
            simp [Graph.revSources, hrl]
          · simp [Graph.revSources, hon]
        · rw [if_neg hnb, mapGet_mapSet]
          by_cases hob : o = b
          · subst hob
            simp [Graph.revSources, hrl, hnb]
          · simp [Graph.revSources, hob, hnb]

theorem foldl_insert_rev_get (newId : Nat) :
    ∀ (ts : List Nat) (rl : List (Nat × List Nat)) (b : Nat),
      (mapGet (ts.foldl
          (fun rl key => mapSet rl key (insertTgt ((mapGet rl key).getD []) newId))
          rl) b).getD [] =
        if b ∈ ts then insertTgt ((mapGet rl b).getD []) newId
        else (mapGet rl b).getD [] := by
  intro ts
  induction ts with
  | nil => simp
  | cons t1 ts ih =>
    intro rl b
    simp only [List.foldl_cons]
    rw [ih]
    by_cases h1 : t1 = b
    · subst h1
      by_cases h2 : t1 ∈ ts <;>
        simp [h2, mapGet_mapSet, insertTgt_idem, List.mem_cons]
    · by_cases h2 : b ∈ ts <;>
        simp [h2, mapGet_mapSet, h1, List.mem_cons, Ne.symm h1]

theorem createVirtualNode_spec (g : Graph) (s : Nat) (n : String) (t : Nat)
    (g' : Graph) (newId : Nat)
    (hc : g.createVirtualNode s n t = some (g', newId)) :
    newId = g.nodeCounter ∧ g'.nodeCounter = g.nodeCounter + 1 ∧
    (∀ a, g'.fwdTargets a =
        if g.nodeCounter = a then insertTgt (g.fwdTargets s) t
        else g.fwdTargets a) ∧
    (∀ b, g'.revSources b =
        (fun r1 => if t = b then insertTgt r1 g.nodeCounter else r1)
        (if b ∈ g.fwdTargets s then insertTgt (g.revSources b) g.nodeCounter
         else g.revSources b)) := by
  unfold Graph.createVirtualNode at hc
  cases hrec : mapGet g.reversedNodes s with
  | none => rw [hrec] at hc; simp at hc
  | some oldNode =>
    rw [hrec] at hc
    simp only [Option.bind_eq_bind, Option.some_bind] at hc
    cases hvm : mapGet g.nodes oldNode.name with
    | none => rw [hvm] at hc; simp at hc
    | some vm =>
      rw [hvm] at hc
      simp only [Option.bind_eq_bind, Option.some_bind] at hc
      cases hlst : mapGet vm oldNode.version with
      | none => rw [hlst] at hc; simp at hc
      | some lst =>
        rw [hlst] at hc
        simp only [Option.bind_eq_bind, Option.some_bind, Option.some.injEq,
          Prod.mk.injEq] at hc
        obtain ⟨hg', hid⟩ := hc
        subst hid
        refine ⟨rfl, ?_, ?_, ?_⟩
        · rw [← hg']
        · intro a
          rw [← hg']
          show (mapGet (mapSet (mapSet g.links g.nodeCounter _) g.nodeCounter _)
            a).getD [] = _
          rw [mapGet_mapSet]
          by_cases h1 : g.nodeCounter = a
          · simp [h1, Graph.fwdTargets]
          · rw [if_neg h1, mapGet_mapSet, if_neg h1]
            simp [Graph.fwdTargets, h1]
        · intro b
          rw [← hg']
          show (mapGet (mapSet _ t _) b).getD [] = _
          rw [mapGet_mapSet]
          by_cases h2 : t = b
          · subst h2
            rw [if_pos rfl]
            simp only [Option.getD_some]
            rw [foldl_insert_rev_get]
            by_cases h3 : t ∈ (mapGet g.links s).getD [] <;>
              simp [h3, Graph.fwdTargets, Graph.revSources]
          · rw [if_neg h2, foldl_insert_rev_get]
            by_cases h3 : b ∈ (mapGet g.links s).getD [] <;>
              simp [h3, h2, Graph.fwdTargets, Graph.revSources]

/-- Graph states reachable from the empty graph by arbitrary successful calls
to the five mutating operations (no restriction on the integer arguments:
this is exactly how the claim quantifies over call sequences). -/
inductive Reach : Graph → Prop where
  | empty : Reach Graph.empty
  | addNode (g : Graph) (hg : Reach g) (name version : String) (isLocal : Bool) :
      Reach (g.addNode name version isLocal)
  | addLink (g : Graph) (hg : Reach g) (s t : Nat) : Reach (g.addLink s t)
  | addPeerLink (g : Graph) (hg : Reach g) (s : Nat) (tn tr : String) (o : Bool) :
      Reach (g.addPeerLink s tn tr o)
  | createVirtualNode (g g' : Graph) (newId : Nat) (hg : Reach g)
      (s : Nat) (n : String) (t : Nat)
      (hc : g.createVirtualNode s n t = some (g', newId)) : Reach g'
  | changeChildren (g g' : Graph) (hg : Reach g) (p o n : Nat)
      (hc : g.changeChildren p o n = some g') : Reach g'

/-- Graph states reachable from the empty graph by successful calls whose
node-id arguments all refer to already-allocated ids (below `nodeCounter`
at call time). -/
inductive ReachChecked : Graph → Prop where
  | empty : ReachChecked Graph.empty
  | addNode (g : Graph) (hg : ReachChecked g) (name version : String)
      (isLocal : Bool) : ReachChecked (g.addNode name version isLocal)
  | addLink (g : Graph) (hg : ReachChecked g) (s t : Nat)
      (hs : s < g.nodeCounter) (ht : t < g.nodeCounter) :
      ReachChecked (g.addLink s t)
  | addPeerLink (g : Graph) (hg : ReachChecked g) (s : Nat) (tn tr : String)
      (o : Bool) (hs : s < g.nodeCounter) :
      ReachChecked (g.addPeerLink s tn tr o)
  | createVirtualNode (g g' : Graph) (newId : Nat) (hg : ReachChecked g)
      (s : Nat) (n : String) (t : Nat) (ht : t < g.nodeCounter)
      (hc : g.createVirtualNode s n t = some (g', newId)) : ReachChecked g'
  | changeChildren (g g' : Graph) (hg : ReachChecked g) (p o n : Nat)
      (hp : p < g.nodeCounter) (ho : o < g.nodeCounter) (hn : n < g.nodeCounter)
      (hc : g.changeChildren p o n = some g') : ReachChecked g'

theorem reachChecked_linkInv (g : Graph) (h : ReachChecked g) :
    LinkConsistent g ∧ LinksBounded g := by
  induction h with
  | empty =>
    constructor
    · intro s t
      simp [Graph.fwdTargets, Graph.revSources, Graph.empty, mapGet]
    · intro s t hst
      simp [Graph.fwdTargets, Graph.empty, mapGet] at hst
  | addNode g hg name version isLocal ih =>
    obtain ⟨ihC, ihB⟩ := ih
    constructor
    · exact fun s t => ihC s t
    · intro s t hst
      have := ihB s t hst
      exact ⟨Nat.lt_succ_of_lt this.1, Nat.lt_succ_of_lt this.2⟩
  | addLink g hg s t hs ht ih =>
    obtain ⟨ihC, ihB⟩ := ih
    constructor
    · intro a b
      rw [fwdTargets_addLink, revSources_addLink]
      by_cases h1 : s = a
      · subst h1
        by_cases h2 : t = b
        · subst h2
          simp [mem_insertTgt]
        · simp [mem_insertTgt, h2, Ne.symm h2, ihC s b]
      · by_cases h2 : t = b
        · subst h2
          simp [mem_insertTgt, h1, Ne.symm h1, ihC a t]
        · simp [h1, h2, ihC a b]
    · intro a b hb
      rw [fwdTargets_addLink] at hb
      by_cases h1 : s = a
      · subst h1
        rw [if_pos rfl, mem_insertTgt] at hb
        rcases hb with hb | rfl
        · exact ihB s b hb
        · exact ⟨hs, ht⟩
      · rw [if_neg h1] at hb
        exact ihB a b hb
  | addPeerLink g hg sid tn tr o hs ih => exact ih
  | createVirtualNode g g' newId hg s n t ht hc ih =>
    obtain ⟨ihC, ihB⟩ := ih
    obtain ⟨hid, hcnt, hfwd, hrev⟩ := createVirtualNode_spec _ _ _ _ _ _ hc
    have hfresh : ∀ b : Nat, g.nodeCounter ∉ g.revSources b := by
      intro b hmem
      have hb : b ∈ g.fwdTargets g.nodeCounter := (ihC g.nodeCounter b).mpr hmem
      exact absurd (ihB g.nodeCounter b hb).1 (Nat.lt_irrefl _)
    constructor
    · intro a b
      rw [hfwd a, hrev b]
      simp only []
      by_cases h1 : g.nodeCounter = a
      · subst h1
        rw [if_pos rfl]
        by_cases h2 : t = b
        · subst h2
          by_cases h3 : t ∈ g.fwdTargets s <;>
            simp [mem_insertTgt, h3]
        · by_cases h3 : b ∈ g.fwdTargets s <;>
            simp [mem_insertTgt, h2, h3, Ne.symm h2, hfresh b]
      · rw [if_neg h1]
        by_cases h2 : t = b
        · subst h2
          by_cases h3 : t ∈ g.fwdTargets s <;>
            simp [mem_insertTgt, h3, h1, Ne.symm h1, ihC a t]
        · by_cases h3 : b ∈ g.fwdTargets s <;>
            simp [mem_insertTgt, h2, h3, h1, Ne.symm h1, ihC a b]
    · intro a b hb
      rw [hfwd a] at hb
      rw [hcnt]
      by_cases h1 : g.nodeCounter = a
      · subst h1
        rw [if_pos rfl, mem_insertTgt] at hb
        rcases hb with hb | rfl
        · exact ⟨Nat.lt_succ_self _, Nat.lt_succ_of_lt (ihB s b hb).2⟩
        · exact ⟨Nat.lt_succ_self _, Nat.lt_succ_of_lt ht⟩
      · rw [if_neg h1] at hb
        have := ihB a b hb
        exact ⟨Nat.lt_succ_of_lt this.1, Nat.lt_succ_of_lt this.2⟩
  | changeChildren g g' hg p o n hp ho hn hc ih =>
    obtain ⟨ihC, ihB⟩ := ih
    obtain ⟨hfwd, hrev, hcnt, _, _⟩ := changeChildren_spec _ _ _ _ _ hc
    constructor
    · intro a b
      rw [hfwd a, hrev b]
      simp only []
      by_cases h1 : p = a
      · by_cases h2 : n = b
        · by_cases h3 : o = b <;>
            simp [h1, h2, h3, mem_insertTgt, mem_delTgt]
        · by_cases h3 : o = b
          · simp [h1, h2, h3, Ne.symm h2, mem_insertTgt, mem_delTgt]
          · simp [h1, h2, h3, Ne.symm h2, Ne.symm h3, mem_insertTgt,
              mem_delTgt, ihC a b]
      · by_cases h2 : n = b
        · by_cases h3 : o = b
          · simp [h1, h2, h3, Ne.symm h1, mem_insertTgt, mem_delTgt, ihC a b]
          · simp [h1, h2, h3, Ne.symm h1, mem_insertTgt, mem_delTgt, ihC a b]
        · by_cases h3 : o = b
          · simp [h1, h2, h3, Ne.symm h1, mem_insertTgt, mem_delTgt, ihC a b]
          · simp [h1, h2, h3, ihC a b]
    · intro a b hb
      rw [hfwd a] at hb
      rw [hcnt]
      by_cases h1 : p = a
      · subst h1
        rw [if_pos rfl, mem_insertTgt] at hb
        rcases hb with hb | rfl
        · rw [mem_delTgt] at hb
          exact ihB p b hb.1
        · exact ⟨hp, hn⟩
      · rw [if_neg h1] at hb
        exact ihB a b hb

/-- C6 (amended): for every graph state reachable from the empty graph by
successful `addNode` / `addLink` / `addPeerLink` / `createVirtualNode` /
`changeChildren` calls whose node-id arguments refer to already-allocated ids,
the forward and reverse link indices are mutually consistent: `t` is in
`links[s]` iff `s` is in `reversedLinks[t]`. -/
theorem reachChecked_linkConsistent (g : Graph) (h : ReachChecked g) :
    LinkConsistent g :=
  (reachChecked_linkInv g h).1

/-- Witness for the amended C6 at a concrete call sequence. -/
theorem reachChecked_linkConsistent_witness :
    LinkConsistent (((Graph.empty.addNode "A" "1.0.0" true).addNode
      "B" "1.0.0" false).addLink 0 1) :=
  reachChecked_linkConsistent _
    (ReachChecked.addLink _
      (ReachChecked.addNode _
        (ReachChecked.addNode _ ReachChecked.empty "A" "1.0.0" true)
        "B" "1.0.0" false)
      0 1 (by decide) (by decide))

/-- The state produced by
`((empty.addNode "a" "1" false).addLink 1 0).createVirtualNode 0 "p" 7`:
the out-of-range `addLink 1 0` stored id 1 in both indices before any node
with id 1 existed, and the subsequent `createVirtualNode` reused id 1 and
overwrote its forward adjacency list. -/
def c6CexGraph : Graph :=
  { nodes := [("a", [("1", [{ id := 0, peerDeps := [], isLocal := false },
                            { id := 1, peerDeps := [("p", 7)], isLocal := false }])])],
    reversedNodes :=
      [(0, { name := "a", version := "1", peerDeps := [], isLocal := false }),
       (1, { name := "a", version := "1", peerDeps := [("p", 7)], isLocal := false })],
    links := [(1, [7])],
    reversedLinks := [(0, [1]), (7, [1])],
    nodeCounter := 2,
    peerLinks := [(1, [])] }

/-- Counterexample to C6 as stated: over arbitrary successful call sequences
(with unconstrained integer arguments) the two link indices can diverge, so the
consistency invariant does not hold for every such reachable state. -/
theorem reach_linkConsistent_cex : ¬ ∀ g : Graph, Reach g → LinkConsistent g := by
  intro hall
  have hcv : ((Graph.empty.addNode "a" "1" false).addLink 1 0).createVirtualNode
      0 "p" 7 = some (c6CexGraph, 1) := by decide
  have hreach : Reach c6CexGraph :=
    Reach.createVirtualNode _ _ _
      (Reach.addLink _ (Reach.addNode _ Reach.empty "a" "1" false) 1 0)
      0 "p" 7 hcv
  have hcons := hall _ hreach 1 0
  have h1 : (1 : Nat) ∈ c6CexGraph.revSources 0 := by decide
  have h0 : (0 : Nat) ∉ c6CexGraph.fwdTargets 1 := by decide
  exact h0 (hcons.mpr h1)

/-! ## C9 : round-trip of createVirtualNode and getVirtualNode -/

/-- Every `reversedNodes` key is an allocated id. -/
def NodeIdsBounded (g : Graph) : Prop :=
  ∀ id r, mapGet g.reversedNodes id = some r → id < g.nodeCounter

/-- Every `reversedNodes` record has a duplicate-free peer-deps key set
(JS objects cannot have duplicate keys). -/
def PeerDepsNodupRev (g : Graph) : Prop :=
  ∀ id r, mapGet g.reversedNodes id = some r → (r.peerDeps.map Prod.fst).Nodup

/-- Every entry of the nodes index has a duplicate-free peer-deps key set. -/
def PeerDepsNodupIndex (g : Graph) : Prop :=
  ∀ name vm ver lst e, mapGet g.nodes name = some vm → mapGet vm ver = some lst →
    e ∈ lst → (e.peerDeps.map Prod.fst).Nodup

theorem createVirtualNode_nodes_spec (g : Graph) (s : Nat) (n : String) (t : Nat)
    (g' : Graph) (newId : Nat)
    (hc : g.createVirtualNode s n t = some (g', newId)) :
    ∃ oldNode vm lst,
      mapGet g.reversedNodes s = some oldNode ∧
      mapGet g.nodes oldNode.name = some vm ∧
      mapGet vm oldNode.version = some lst ∧
      newId = g.nodeCounter ∧
      g'.nodeCounter = g.nodeCounter + 1 ∧
      g'.reversedNodes = mapSet g.reversedNodes g.nodeCounter
        { name := oldNode.name, version := oldNode.version,
          peerDeps := mapSet oldNode.peerDeps n t, isLocal := oldNode.isLocal } ∧
      g'.nodes = mapSet g.nodes oldNode.name (mapSet vm oldNode.version
        (lst ++ [{ id := g.nodeCounter, peerDeps := mapSet oldNode.peerDeps n t,
                   isLocal := oldNode.isLocal }])) := by
  unfold Graph.createVirtualNode at hc
  cases hrec : mapGet g.reversedNodes s with
  | none => rw [hrec] at hc; simp at hc
  | some oldNode =>
    rw [hrec] at hc
    simp only [Option.bind_eq_bind, Option.some_bind] at hc
    cases hvm : mapGet g.nodes oldNode.name with
    | none => rw [hvm] at hc; simp at hc
    | some vm =>
      rw [hvm] at hc
      simp only [Option.bind_eq_bind, Option.some_bind] at hc
      cases hlst : mapGet vm oldNode.version with
      | none => rw [hlst] at hc; simp at hc
      | some lst =>
        rw [hlst] at hc
        simp only [Option.bind_eq_bind, Option.some_bind, Option.some.injEq,
          Prod.mk.injEq] at hc
        obtain ⟨hg', hid⟩ := hc
        refine ⟨oldNode, vm, lst, rfl, hvm, hlst, ?_, ?_, ?_, ?_⟩
        · exact hid.symm
        · rw [← hg']
        · rw [← hg']
        · rw [← hg']

theorem reach_nodeInv (g : Graph) (h : Reach g) :
    NodeIdsBounded g ∧ PeerDepsNodupRev g ∧ PeerDepsNodupIndex g := by
  induction h with
  | empty =>
    refine ⟨?_, ?_, ?_⟩
    · intro id r hr
      simp [Graph.empty, mapGet] at hr
    · intro id r hr
      simp [Graph.empty, mapGet] at hr
    · intro name vm ver lst e h1 h2 h3
      simp [Graph.empty, mapGet] at h1
  | addNode g hg name version isLocal ih =>
    obtain ⟨ihA, ihB, ihC⟩ := ih
    refine ⟨?_, ?_, ?_⟩
    · intro id r hr
      show id < g.nodeCounter + 1
      rw [show (g.addNode name version isLocal).reversedNodes =
        mapSet g.reversedNodes g.nodeCounter _ from rfl, mapGet_mapSet] at hr
      by_cases hid : g.nodeCounter = id
      · omega
      · rw [if_neg hid] at hr
        exact Nat.lt_succ_of_lt (ihA id r hr)
    · intro id r hr
      rw [show (g.addNode name version isLocal).reversedNodes =
        mapSet g.reversedNodes g.nodeCounter _ from rfl, mapGet_mapSet] at hr
      by_cases hid : g.nodeCounter = id
      · rw [if_pos hid, Option.some.injEq] at hr
        subst hr
        simp
      · rw [if_neg hid] at hr
        exact ihB id r hr
    · intro nm vm ver lst e h1 h2 h3
      rw [show (g.addNode name version isLocal).nodes =
        mapSet g.nodes name (mapSet ((mapGet g.nodes name).getD []) version
          [{ id := g.nodeCounter, peerDeps := [], isLocal := isLocal }]) from rfl,
        mapGet_mapSet] at h1
      by_cases hnm : name = nm
      · rw [if_pos hnm, Option.some.injEq] at h1
        subst h1
        rw [mapGet_mapSet] at h2
        by_cases hver : version = ver
        · rw [if_pos hver, Option.some.injEq] at h2
          subst h2
          simp only [List.mem_singleton] at h3
          subst h3
          simp
        · rw [if_neg hver] at h2
          cases hbase : mapGet g.nodes name with
          | none => rw [hbase] at h2; simp [mapGet] at h2
          | some vmOld =>
            rw [hbase] at h2
            exact ihC name vmOld ver lst e hbase h2 h3
      · rw [if_neg hnm] at h1
        exact ihC nm vm ver lst e h1 h2 h3
  | addLink g hg s t ih => exact ih
  | addPeerLink g hg sid tn tr o ih => exact ih
  | createVirtualNode g g' newId hg s n t hc ih =>
    obtain ⟨ihA, ihB, ihC⟩ := ih
    obtain ⟨oldNode, vm, lst, hrec, hvm, hlst, hid, hcnt, hrevN, hnodes⟩ :=
      createVirtualNode_nodes_spec _ _ _ _ _ _ hc
    have hOldNodup : (oldNode.peerDeps.map Prod.fst).Nodup := ihB s oldNode hrec
    have hNewNodup : ((mapSet oldNode.peerDeps n t).map Prod.fst).Nodup :=
      nodup_keys_mapSet _ _ _ hOldNodup
    refine ⟨?_, ?_, ?_⟩
    · intro id r hr
      rw [hrevN, mapGet_mapSet] at hr
      rw [hcnt]
      by_cases hid2 : g.nodeCounter = id
      · omega
      · rw [if_neg hid2] at hr
        exact Nat.lt_succ_of_lt (ihA id r hr)
    · intro id r hr
      rw [hrevN, mapGet_mapSet] at hr
      by_cases hid2 : g.nodeCounter = id
      · rw [if_pos hid2, Option.some.injEq] at hr
        subst hr
        exact hNewNodup
      · rw [if_neg hid2] at hr
        exact ihB id r hr
    · intro nm vm2 ver lst2 e h1 h2 h3
      rw [hnodes, mapGet_mapSet] at h1
      by_cases hnm : oldNode.name = nm
      · rw [if_pos hnm, Option.some.injEq] at h1
        subst h1
        rw [mapGet_mapSet] at h2
        by_cases hver : oldNode.version = ver
        · rw [if_pos hver, Option.some.injEq] at h2
          subst h2
          rw [List.mem_append] at h3
          rcases h3 with h3 | h3
          · exact ihC oldNode.name vm ver lst e (hnm ▸ hvm) (hver ▸ hlst) h3
          · simp only [List.mem_singleton] at h3
            subst h3
            exact hNewNodup
        · rw [if_neg hver] at h2
          exact ihC oldNode.name vm ver lst2 e (hnm ▸ hvm) h2 h3
      · rw [if_neg hnm] at h1
        exact ihC nm vm2 ver lst2 e h1 h2 h3
  | changeChildren g g' hg p o n hc ih =>
    obtain ⟨_, _, hcnt, hnodes, hrevN⟩ := changeChildren_spec _ _ _ _ _ hc
    obtain ⟨ihA, ihB, ihC⟩ := ih
    refine ⟨?_, ?_, ?_⟩
    · intro id r hr
      rw [hrevN] at hr
      rw [hcnt]
      exact ihA id r hr
    · intro id r hr
      rw [hrevN] at hr
      exact ihB id r hr
    · intro nm vm ver lst e h1 h2 h3
      rw [hnodes] at h1
      exact ihC nm vm ver lst e h1 h2 h3

theorem virtualMatch_of_new (rpd : List (String × Nat)) (n : String) (t : Nat)
    (isL : Bool) (cnt : Nat) (hn : n ∉ rpd.map Prod.fst) :
    virtualMatch rpd n t
      { id := cnt, peerDeps := mapSet rpd n t, isLocal := isL } = true := by
  unfold virtualMatch
  simp only [Bool.and_eq_true, decide_eq_true_eq, List.all_eq_true]
  refine ⟨⟨?_, ?_⟩, ?_⟩
  · rw [length_mapSet, if_neg hn]
  · intro pd hpd
    rw [mapGet_mapSet]
    have hne : n ≠ pd.1 := fun h => hn (h ▸ List.mem_map_of_mem Prod.fst hpd)
    rw [if_neg hne]
  · rw [mapGet_mapSet, if_pos rfl]

theorem virtualMatch_peerDeps_eq (rpd opd : List (String × Nat)) (n : String)
    (t : Nat) (hnodupR : (rpd.map Prod.fst).Nodup)
    (hnodupO : (opd.map Prod.fst).Nodup) (hn : n ∉ rpd.map Prod.fst)
    (hlen : opd.length = rpd.length + 1)
    (hagree : ∀ pd ∈ rpd, mapGet opd pd.1 = mapGet rpd pd.1)
    (hful : mapGet opd n = some t) :
    ∀ k, mapGet opd k = mapGet (mapSet rpd n t) k := by
  have hkeysub : ∀ x ∈ rpd.map Prod.fst ++ [n], x ∈ opd.map Prod.fst := by
    intro x hx
    rw [List.mem_append] at hx
    rcases hx with hx | hx
    · obtain ⟨pd, hpd, rfl⟩ := List.mem_map.mp hx
      have h1 := hagree pd hpd
      have h2 : mapGet rpd pd.1 ≠ none :=
        fun hno => (mapGet_eq_none rpd pd.1).mp hno
          (List.mem_map_of_mem Prod.fst hpd)
      have h3 : mapGet opd pd.1 ≠ none := by rw [h1]; exact h2
      by_contra hxo
      exact h3 ((mapGet_eq_none opd pd.1).mpr hxo)
    · simp only [List.mem_singleton] at hx
      subst hx
      by_contra hxo
      rw [(mapGet_eq_none opd x).mpr hxo] at hful
      exact Option.noConfusion hful
  have hnodupR2 : (rpd.map Prod.fst ++ [n]).Nodup := by
    refine List.Nodup.append hnodupR (List.nodup_singleton n) ?_
    simpa [List.disjoint_singleton] using hn
  have hseteq : (rpd.map Prod.fst ++ [n]).toFinset = (opd.map Prod.fst).toFinset := by
    apply Finset.eq_of_subset_of_card_le
    · intro x hx
      rw [List.mem_toFinset] at hx ⊢
      exact hkeysub x hx
    · rw [List.toFinset_card_of_nodup hnodupO,
        List.toFinset_card_of_nodup hnodupR2]
      simp [hlen]
  intro k
  rw [mapGet_mapSet]
  by_cases hk : n = k
  · subst hk
    rw [if_pos rfl]
    exact hful
  · rw [if_neg hk]
    by_cases hkr : k ∈ rpd.map Prod.fst
    · obtain ⟨pd, hpd, hpd1⟩ := List.mem_map.mp hkr
      rw [← hpd1]
      exact hagree pd hpd
    · have hk1 : k ∉ rpd.map Prod.fst ++ [n] := by
        rw [List.mem_append]
        push_neg
        exact ⟨hkr, by simp [Ne.symm hk]⟩
      have hk2 : k ∉ opd.map Prod.fst := by
        intro hko
        exact hk1 (List.mem_toFinset.mp
          (hseteq ▸ List.mem_toFinset.mpr hko))
      rw [(mapGet_eq_none opd k).mpr hk2, (mapGet_eq_none rpd k).mpr hkr]

/-- C9: round-trip of virtualization.  On every reachable graph state, if
`createVirtualNode s n t` succeeds (with `n` not already a key of the source's
`peerDeps`), then `getVirtualNode s n t` on the resulting state returns a
concrete node id, and that node lives in the same `(name, version)` index slot
as the source and has `peerDeps` equal (as a map) to the source's `peerDeps`
extended with `n ↦ t`. -/
theorem createVirtual_getVirtual_roundTrip (g : Graph) (hg : Reach g)
    (s : Nat) (n : String) (t : Nat) (g' : Graph) (newId : Nat)
    (hc : g.createVirtualNode s n t = some (g', newId))
    (r : NodeRec) (hr : mapGet g.reversedNodes s = some r)
    (hn : n ∉ r.peerDeps.map Prod.fst) :
    ∃ v : Nat, g'.getVirtualNode s n t = some (some v) ∧
      ∃ vm lst e, mapGet g'.nodes r.name = some vm ∧
        mapGet vm r.version = some lst ∧ e ∈ lst ∧ e.id = v ∧
        ∀ k, mapGet e.peerDeps k = mapGet (mapSet r.peerDeps n t) k := by
  obtain ⟨ihA, ihB, ihC⟩ := reach_nodeInv g hg
  obtain ⟨oldNode, vm, lst, hrec, hvm, hlst, hid, hcnt, hrevN, hnodes⟩ :=
    createVirtualNode_nodes_spec _ _ _ _ _ _ hc
  have hON : oldNode = r := by
    rw [hrec] at hr
    exact Option.some.inj hr
  subst hON
  have hs_lt : s < g.nodeCounter := ihA s oldNode hrec
  have hrec2 : mapGet g'.reversedNodes s = some oldNode := by
    rw [hrevN, mapGet_mapSet, if_neg (by omega : ¬ g.nodeCounter = s)]
    exact hrec
  have hvm2 : mapGet g'.nodes oldNode.name =
      some (mapSet vm oldNode.version
        (lst ++ [(⟨g.nodeCounter, mapSet oldNode.peerDeps n t,
          oldNode.isLocal⟩ : IndexEntry)])) := by
    rw [hnodes, mapGet_mapSet, if_pos rfl]
  have hlst2 : mapGet (mapSet vm oldNode.version
      (lst ++ [(⟨g.nodeCounter, mapSet oldNode.peerDeps n t,
        oldNode.isLocal⟩ : IndexEntry)])) oldNode.version =
      some (lst ++ [(⟨g.nodeCounter, mapSet oldNode.peerDeps n t,
        oldNode.isLocal⟩ : IndexEntry)]) := by
    rw [mapGet_mapSet, if_pos rfl]
  have hmatchNew : virtualMatch oldNode.peerDeps n t
      (⟨g.nodeCounter, mapSet oldNode.peerDeps n t, oldNode.isLocal⟩ :
        IndexEntry) = true :=
    virtualMatch_of_new oldNode.peerDeps n t oldNode.isLocal g.nodeCounter hn
  have hfind : ∃ o, (lst ++ [(⟨g.nodeCounter, mapSet oldNode.peerDeps n t,
      oldNode.isLocal⟩ : IndexEntry)]).find?
      (virtualMatch oldNode.peerDeps n t) = some o := by
    cases hf : (lst ++ [(⟨g.nodeCounter, mapSet oldNode.peerDeps n t,
        oldNode.isLocal⟩ : IndexEntry)]).find?
        (virtualMatch oldNode.peerDeps n t) with
    | some o => exact ⟨o, rfl⟩
    | none =>
      rw [List.find?_eq_none] at hf
      exact absurd hmatchNew (by simpa using hf _ (by simp))
  obtain ⟨o, hfo⟩ := hfind
  have hoMem := List.mem_of_find?_eq_some hfo
  have hoMatch := List.find?_some hfo
  have hgv : g'.getVirtualNode s n t = some (some o.id) := by
    unfold Graph.getVirtualNode
    rw [hrec2]
    simp only [Option.bind_eq_bind, Option.some_bind]
    rw [hvm2]
    simp only [Option.bind_eq_bind, Option.some_bind]
    rw [hlst2]
    simp only [Option.bind_eq_bind, Option.some_bind]
    rw [hfo]
    rfl
  have hoNodup : (o.peerDeps.map Prod.fst).Nodup := by
    rcases List.mem_append.mp hoMem with h | h
    · exact ihC oldNode.name vm oldNode.version lst o hvm hlst h
    · simp only [List.mem_singleton] at h
      subst h
      exact nodup_keys_mapSet _ _ _ (ihB s oldNode hrec)
  have hrNodup : (oldNode.peerDeps.map Prod.fst).Nodup := ihB s oldNode hrec
  have hcond := hoMatch
  unfold virtualMatch at hcond
  simp only [Bool.and_eq_true, decide_eq_true_eq, List.all_eq_true] at hcond
  obtain ⟨⟨hlen, hagree⟩, hful⟩ := hcond
  refine ⟨o.id, hgv, _, _, o, hvm2, hlst2, hoMem, rfl, ?_⟩
  exact virtualMatch_peerDeps_eq oldNode.peerDeps o.peerDeps n t hrNodup hoNodup
    hn hlen (fun pd hpd => hagree pd hpd) hful

/-- The source record of the C9 witness. -/
def c9Rec : NodeRec := ⟨"a", "1.0.0", [], false⟩

/-- The graph produced by `createVirtualNode 0 "p" 5` on a one-node graph. -/
def c9ResultGraph : Graph :=
  { nodes := [("a", [("1.0.0", [⟨0, [], false⟩, ⟨1, [("p", 5)], false⟩])])],
    reversedNodes := [(0, ⟨"a", "1.0.0", [], false⟩),
                      (1, ⟨"a", "1.0.0", [("p", 5)], false⟩)],
    links := [(1, [5])],
    reversedLinks := [(5, [1])],
    nodeCounter := 2,
    peerLinks := [(1, [])] }

/-- Witness for C9 at a concrete reachable graph. -/
theorem createVirtual_getVirtual_roundTrip_witness :
    ((Graph.empty.addNode "a" "1.0.0" false).createVirtualNode 0 "p" 5 =
      some (c9ResultGraph, 1)) ∧
    (mapGet (Graph.empty.addNode "a" "1.0.0" false).reversedNodes 0 =
      some c9Rec) ∧
    ("p" ∉ c9Rec.peerDeps.map Prod.fst) ∧
    (∃ v : Nat, c9ResultGraph.getVirtualNode 0 "p" 5 = some (some v) ∧
      ∃ vm lst e, mapGet c9ResultGraph.nodes c9Rec.name = some vm ∧
        mapGet vm c9Rec.version = some lst ∧ e ∈ lst ∧ e.id = v ∧
        ∀ k, mapGet e.peerDeps k = mapGet (mapSet c9Rec.peerDeps "p" 5) k) :=
  ⟨by decide, by decide, by decide,
    createVirtual_getVirtual_roundTrip _
      (Reach.addNode _ Reach.empty "a" "1.0.0" false) 0 "p" 5 c9ResultGraph 1
      (by decide) c9Rec (by decide) (by decide)⟩

/-! ## C4 : peer resolution with a non-satisfying provider (createDependencyGraph) -/

/-- Does node `id` carry a record whose name is `name`
(`graph.reversedNodes.get(s)?.name === name`)? -/
def childNamed (g : Graph) (id : Nat) (name : String) : Bool :=
  (mapGet g.reversedNodes id).map (·.name) = some name

/-- The outcome of `resolveChild` in createDependencyGraph.  `thrown` is the
`[ERROR] Unmet peer dependency` exception; `crashed` models a JS TypeError from
a missing `reversedNodes` record. -/
inductive RCResult where
  | found (id : Nat)
  | failed
  | ignored
  | retryLater
  | thrown (msg : String)
  | crashed
  deriving Repr, DecidableEq

/-- The warning emitted when the chosen provider does not satisfy the declared
range. -/
def unmatchingWarning (name srcName srcVersion parentName parentVersion
    version targetRange : String) : String :=
  "[WARNING] unmatching peer dependency" ++ (", " ++ name ++ " in " ++ srcName
    ++ "@" ++ srcVersion ++ " (parent: " ++ parentName ++ "@" ++ parentVersion
    ++ ") was resolved to version " ++ version
    ++ " which does not satisfy the given range: " ++ targetRange)

/-- `resolveChild` of createDependencyGraph.  `sat` abstracts the external
`semver.satisfies`; the second component collects the `console.error`
warnings. -/
def resolveChild (sat : String → String → Bool) (g : Graph)
    (failOnMissingPeerDependencies : Bool) (parentId sourceId : Nat)
    (targetRange : String) (parent : Nat) (name : String)
    (optionalFlag : Bool) : RCResult × List String :=
  if ((mapGet g.links sourceId).getD []).any (fun s => childNamed g s name) then
    (.ignored, [])
  else
    match (((mapGet g.links parentId).getD []) ++ [parentId]).find?
        (fun s => childNamed g s name) with
    | some result =>
      match mapGet g.reversedNodes result with
      | none => (.crashed, [])
      | some resRec =>
        if sat resRec.version targetRange then (.found result, [])
        else
          match mapGet g.reversedNodes parentId, mapGet g.reversedNodes sourceId with
          | some pRec, some sRec =>
            (.found result,
              [unmatchingWarning name sRec.name sRec.version pRec.name
                pRec.version resRec.version targetRange])
          | _, _ => (.crashed, [])
    | none =>
      if optionalFlag then (.ignored, [])
      else if g.hasPeerLink parent then (.retryLater, [])
      else
        match mapGet g.reversedNodes parentId, mapGet g.reversedNodes sourceId with
        | some pRec, some sRec =>
          if failOnMissingPeerDependencies then
            (.thrown ("[ERROR] Unmet peer dependency: " ++ name ++ " in "
              ++ sRec.name ++ "@" ++ sRec.version ++ " (parent: " ++ pRec.name
              ++ "@" ++ pRec.version ++ ")"), [])
          else
            (.failed, ["[WARNING] Unmet peer dependency: " ++ name ++ " in "
              ++ sRec.name ++ "@" ++ sRec.version ++ " (parent: " ++ pRec.name
              ++ "@" ++ pRec.version ++ ")"])
        | _, _ => (.crashed, [])

/-- State carried by the peer-resolution loop: the graph, the remaining queue
and the watchdog counter. -/
structure ResolveState where
  graph : Graph
  queue : List EnrichedPeerLink
  watchDog : Nat
  deriving Repr, DecidableEq

/-- Result of one iteration of the peer-resolution loop. -/
inductive StepResult where
  | ok (st : ResolveState)
  | errorThrown (msg : String)
  | crashed
  deriving Repr, DecidableEq

/-- One iteration of the fixed-point peer-resolution loop of
createDependencyGraph, acting on a popped peer link `pd` with remaining queue
`rest`.  The second component collects the warnings printed during the
iteration. -/
def resolveStep (sat : String → String → Bool) (failOnMissing : Bool)
    (g : Graph) (pd : EnrichedPeerLink) (rest : List EnrichedPeerLink)
    (watchDog : Nat) : StepResult × List String :=
  if pd.sourceId ∈ (mapGet g.links pd.parentId).getD [] then
    match resolveChild sat g failOnMissing pd.parentId pd.sourceId
        pd.targetRange pd.parentId pd.targetName pd.optionalFlag with
    | (.found result, ws) =>
      match g.getVirtualNode pd.sourceId pd.targetName result with
      | none => (.crashed, ws)
      | some (some existingVirtualNode) =>
        let newPeerLinks := (mapGet g.peerLinks existingVirtualNode).getD []
        let queue1 := rest ++ newPeerLinks.map (fun pl =>
          ⟨pd.parentId, existingVirtualNode, pl.targetName, pl.targetRange,
            pl.optionalFlag⟩)
        match g.changeChildren pd.parentId pd.sourceId existingVirtualNode with
        | none => (.crashed, ws)
        | some g2 => (.ok ⟨g2, queue1, queue1.length + 1⟩, ws)
      | some none =>
        match g.createVirtualNode pd.sourceId pd.targetName result with
        | none => (.crashed, ws)
        | some (g2, newPackageId) =>
          let newPeerLinks := (mapGet g2.peerLinks newPackageId).getD []
          let queue1 := rest ++ newPeerLinks.map (fun pl =>
            ⟨pd.parentId, newPackageId, pl.targetName, pl.targetRange,
              pl.optionalFlag⟩)
          let children := (mapGet g2.links newPackageId).getD []
          let queue2 := queue1 ++ children.flatMap (fun child =>
            ((mapGet g2.peerLinks child).getD []).map (fun pl =>
              ⟨newPackageId, child, pl.targetName, pl.targetRange,
                pl.optionalFlag⟩))
          match g2.changeChildren pd.parentId pd.sourceId newPackageId with
          | none => (.crashed, ws)
          | some g3 => (.ok ⟨g3, queue2, queue2.length + 1⟩, ws)
    | (.retryLater, ws) => (.ok ⟨g, rest ++ [pd], watchDog - 1⟩, ws)
    | (.ignored, ws) => (.ok ⟨g, rest, watchDog⟩, ws)
    | (.failed, ws) => (.ok ⟨g, rest, watchDog⟩, ws)
    | (.thrown msg, ws) => (.errorThrown msg, ws)
    | (.crashed, ws) => (.crashed, ws)
  else
    -- the edge parent→source no longer exists: drop the stale entry
    (.ok ⟨g, rest, rest.length + 1⟩, [])

/-- C4: whenever the chosen provider for a pending peer link has a version that
does not satisfy the declared range (under the abstracted `semver.satisfies`),
`resolveChild` emits a `[WARNING] unmatching peer dependency` warning and still
returns that provider; resolution does not fail, and the whole loop iteration
(graph rewiring, queue, watchdog) is identical to the one performed when the
version satisfies the range. -/
theorem resolveStep_unmatchingPeer (sat : String → String → Bool)
    (failOnMissing : Bool) (g : Graph) (pd : EnrichedPeerLink)
    (rest : List EnrichedPeerLink) (wd : Nat) (r : Nat) (rRec : NodeRec)
    (ws : List String)
    (hres : resolveChild sat g failOnMissing pd.parentId pd.sourceId
      pd.targetRange pd.parentId pd.targetName pd.optionalFlag = (.found r, ws))
    (hrec : mapGet g.reversedNodes r = some rRec)
    (hsat : sat rRec.version pd.targetRange = false) :
    (∃ suffix, ws = ["[WARNING] unmatching peer dependency" ++ suffix]) ∧
    (resolveChild (fun _ _ => true) g failOnMissing pd.parentId pd.sourceId
      pd.targetRange pd.parentId pd.targetName pd.optionalFlag =
      (.found r, [])) ∧
    ((resolveStep sat failOnMissing g pd rest wd).1 =
      (resolveStep (fun _ _ => true) failOnMissing g pd rest wd).1) := by
  have hresCopy := hres
  unfold resolveChild at hres
  by_cases hany : ((mapGet g.links pd.sourceId).getD []).any
      (fun s => childNamed g s pd.targetName)
  · rw [if_pos hany] at hres
    simp at hres
  · rw [if_neg hany] at hres
    cases hfind : (((mapGet g.links pd.parentId).getD []) ++ [pd.parentId]).find?
        (fun s => childNamed g s pd.targetName) with
    | none =>
      rw [hfind] at hres
      dsimp only [] at hres
      exfalso
      by_cases h1 : pd.optionalFlag
      · rw [if_pos h1] at hres
        simp at hres
      · rw [if_neg h1] at hres
        by_cases h2 : g.hasPeerLink pd.parentId
        · rw [if_pos h2] at hres
          simp at hres
        · rw [if_neg h2] at hres
          cases hpp : mapGet g.reversedNodes pd.parentId <;> rw [hpp] at hres <;>
            cases hss : mapGet g.reversedNodes pd.sourceId <;> rw [hss] at hres <;>
            by_cases h3 : failOnMissing <;> simp [h3] at hres
    | some result =>
      rw [hfind] at hres
      dsimp only [] at hres
      cases hrr : mapGet g.reversedNodes result with
      | none =>
        rw [hrr] at hres
        simp at hres
      | some resRec =>
        rw [hrr] at hres
        dsimp only [] at hres
        by_cases hsat2 : sat resRec.version pd.targetRange
        · rw [if_pos hsat2] at hres
          simp only [Prod.mk.injEq, RCResult.found.injEq] at hres
          obtain ⟨hr, hws⟩ := hres
          subst hr
          rw [hrr] at hrec
          cases Option.some.inj hrec
          rw [hsat] at hsat2
          exact absurd hsat2 (by simp)
        · rw [if_neg hsat2] at hres
          cases hpp : mapGet g.reversedNodes pd.parentId with
          | none =>
            rw [hpp] at hres
            cases hss : mapGet g.reversedNodes pd.sourceId <;> rw [hss] at hres <;>
              simp at hres
          | some pRec =>
            cases hss : mapGet g.reversedNodes pd.sourceId with
            | none =>
              rw [hpp, hss] at hres
              simp at hres
            | some sRec =>
              rw [hpp, hss] at hres
              dsimp only [] at hres
              simp only [Prod.mk.injEq, RCResult.found.injEq] at hres
              obtain ⟨hr, hws⟩ := hres
              subst hr
              have hresT : resolveChild (fun _ _ => true) g failOnMissing
                  pd.parentId pd.sourceId pd.targetRange pd.parentId
                  pd.targetName pd.optionalFlag = (.found result, []) := by
                unfold resolveChild
                rw [if_neg hany, hfind]
                dsimp only []
                rw [hrr]
                simp
              refine ⟨⟨_, hws.symm⟩, hresT, ?_⟩
              unfold resolveStep
              rw [hresCopy, hresT]
              by_cases hst : pd.sourceId ∈ (mapGet g.links pd.parentId).getD []
              · simp only [if_pos hst]
                cases hgv : g.getVirtualNode pd.sourceId pd.targetName result with
                | none => simp
                | some vopt =>
                  cases vopt with
                  | some ev =>
                    cases hcc : g.changeChildren pd.parentId pd.sourceId ev with
                    | none => simp [hcc]
                    | some g2 => simp [hcc]
                  | none =>
                    cases hcv : g.createVirtualNode pd.sourceId pd.targetName
                        result with
                    | none => simp [hcv]
                    | some pr =>
                      obtain ⟨g2, nid⟩ := pr
                      cases hcc : g2.changeChildren pd.parentId pd.sourceId nid with
                      | none => simp [hcv, hcc]
                      | some g3 => simp [hcv, hcc]
              · simp only [if_neg hst]

/-- Concrete resolver state matching the "emit warning if peerDependency is
fulfilled with wrong version" scenario: local A depends on B and C, and B has
a pending peer dependency on `C@^2.0.0` while the installed C is `1.0.1`. -/
def c4Graph : Graph :=
  { nodes := [("A", [("1.0.0", [⟨0, [], true⟩])]),
              ("B", [("1.1.0", [⟨1, [], false⟩])]),
              ("C", [("1.0.1", [⟨2, [], false⟩])])],
    reversedNodes := [(0, ⟨"A", "1.0.0", [], true⟩),
                      (1, ⟨"B", "1.1.0", [], false⟩),
                      (2, ⟨"C", "1.0.1", [], false⟩)],
    links := [(0, [1, 2])],
    reversedLinks := [(1, [0]), (2, [0])],
    nodeCounter := 3,
    peerLinks := [(1, [⟨"C", "^2.0.0", false⟩])] }

/-- The abstracted `semver.satisfies` for the witness: `1.0.1` does not satisfy
`^2.0.0`. -/
def c4Sat : String → String → Bool := fun _ _ => false

/-- The pending peer link popped by the loop in the witness scenario. -/
def c4Pd : EnrichedPeerLink := ⟨0, 1, "C", "^2.0.0", false⟩

/-- The warning list produced in the witness scenario. -/
def c4Ws : List String :=
  [unmatchingWarning "C" "B" "1.1.0" "A" "1.0.0" "1.0.1" "^2.0.0"]

/-- Witness for C4 at a concrete resolver state. -/
theorem resolveStep_unmatchingPeer_witness :
    (resolveChild c4Sat c4Graph true c4Pd.parentId c4Pd.sourceId
      c4Pd.targetRange c4Pd.parentId c4Pd.targetName c4Pd.optionalFlag =
      (.found 2, c4Ws)) ∧
    (mapGet c4Graph.reversedNodes 2 = some ⟨"C", "1.0.1", [], false⟩) ∧
    (c4Sat "1.0.1" "^2.0.0" = false) ∧
    ((∃ suffix, c4Ws = ["[WARNING] unmatching peer dependency" ++ suffix]) ∧
      (resolveChild (fun _ _ => true) c4Graph true c4Pd.parentId c4Pd.sourceId
        c4Pd.targetRange c4Pd.parentId c4Pd.targetName c4Pd.optionalFlag =
        (.found 2, [])) ∧
      ((resolveStep c4Sat true c4Graph c4Pd [] 5).1 =
        (resolveStep (fun _ _ => true) true c4Graph c4Pd [] 5).1)) :=
  ⟨by decide, by decide, by decide,
    resolveStep_unmatchingPeer c4Sat true c4Graph c4Pd [] 5 2
      ⟨"C", "1.0.1", [], false⟩ c4Ws (by decide) (by decide) (by decide)⟩

/-! ## toJson : reachability projection (C1, C2) -/

/-- The ids of all nodes stored in the `nodes[name][version]` index, in
iteration order, paired with their name and version. -/
def flatIndex (g : Graph) : List (String × String × Nat) :=
  g.nodes.flatMap (fun nv => nv.2.flatMap (fun ve =>
    ve.2.map (fun n => (nv.1, ve.1, n.id))))

/-- The local roots collected by `getReachableNodes`. -/
def rootIds (g : Graph) : List Nat :=
  g.nodes.flatMap (fun nv => nv.2.flatMap (fun ve =>
    (ve.2.filter (fun n => n.isLocal)).map (fun n => n.id)))

/-- A finite universe containing every id the BFS worklist can ever hold. -/
def bfsUniv (g : Graph) : List Nat :=
  rootIds g ++ g.links.flatMap (fun e => e.2)

theorem mapGet_mem {κ β : Type} [DecidableEq κ] (m : List (κ × β)) (k : κ)
    (v : β) (h : mapGet m k = some v) : (k, v) ∈ m := by
  induction m with
  | nil => simp [mapGet] at h
  | cons p rest ih =>
    obtain ⟨pk, pv⟩ := p
    by_cases hk : pk = k
    · subst hk
      have h2 : some pv = some v := by simpa [mapGet] using h
      cases Option.some.inj h2
      exact List.mem_cons_self _ _
    · simp only [mapGet, if_neg hk] at h
      exact List.mem_cons_of_mem _ (ih h)

theorem fwdTargets_subset_bfsUniv (g : Graph) (s : Nat) :
    ∀ t ∈ g.fwdTargets s, t ∈ bfsUniv g := by
  intro t ht
  unfold Graph.fwdTargets at ht
  cases hm : mapGet g.links s with
  | none => rw [hm] at ht; simp at ht
  | some l =>
    rw [hm] at ht
    simp only [Option.getD_some] at ht
    unfold bfsUniv
    rw [List.mem_append]
    right
    rw [List.mem_flatMap]
    exact ⟨(s, l), mapGet_mem _ _ _ hm, ht⟩

theorem rootIds_subset_bfsUniv (g : Graph) : ∀ x ∈ rootIds g, x ∈ bfsUniv g :=
  fun x hx => List.mem_append.mpr (Or.inl hx)

theorem length_filter_le_of_imp (p q : Nat → Bool) (l : List Nat)
    (h : ∀ x, p x = true → q x = true) :
    (l.filter p).length ≤ (l.filter q).length := by
  induction l with
  | nil => simp
  | cons a tl ih =>
    by_cases hq : q a = true
    · by_cases hp : p a = true
      · simp [List.filter_cons, hp, hq, Nat.succ_le_succ ih]
      · simp only [List.filter_cons, hp, hq, if_true, if_false]
        simp only [Bool.false_eq_true, if_false]
        exact Nat.le_succ_of_le ih
    · have hp : ¬ p a = true := fun hpa => hq (h a hpa)
      simp only [List.filter_cons, hp, hq]
      simp only [Bool.false_eq_true, if_false]
      exact ih

theorem filter_not_mem_snoc_lt (univ : List Nat) (reached : List Nat)
    (next : Nat) (hu : next ∈ univ) (hr : next ∉ reached) :
    (univ.filter (fun x => decide (x ∉ reached ++ [next]))).length <
      (univ.filter (fun x => decide (x ∉ reached))).length := by
  induction univ with
  | nil => cases hu
  | cons a tl ih =>
    have himp : ∀ x, decide (x ∉ reached ++ [next]) = true →
        decide (x ∉ reached) = true := by
      intro x hx
      simp only [decide_eq_true_eq, List.mem_append] at *
      exact fun hmem => hx (Or.inl hmem)
    by_cases ha : a = next
    · subst ha
      have h1 : decide (a ∉ reached ++ [a]) = false := by simp
      have h2 : decide (a ∉ reached) = true := by simpa using hr
      simp only [List.filter_cons, h1, h2, if_true, if_false]
      simp only [Bool.false_eq_true, if_false, List.length_cons]
      exact Nat.lt_succ_of_le (length_filter_le_of_imp _ _ tl himp)
    · have htl : next ∈ tl := by
        rcases List.mem_cons.mp hu with h | h
        · exact absurd h.symm ha
        · exact h
      have hsame : decide (a ∉ reached ++ [next]) = decide (a ∉ reached) := by
        simp only [List.mem_append, List.mem_singleton, decide_eq_decide]
        constructor
        · intro h hmem
          exact h (Or.inl hmem)
        · intro h hmem
          rcases hmem with hmem | hmem
          · exact h hmem
          · exact ha hmem
      rw [List.filter_cons, List.filter_cons, hsame]
      by_cases hcase : decide (a ∉ reached) = true
      · simp only [hcase, if_true, List.length_cons]
        exact Nat.succ_lt_succ (ih htl)
      · simp only [Bool.not_eq_true] at hcase
        simp only [hcase]
        simp only [Bool.false_eq_true, if_false]
        exact ih htl

/-- The worklist loop of `getReachableNodes`.  The JS code pops from the back
of `waiting`; the head of our `waiting` list is the JS back, and discovered
dependencies are pushed in reversed order accordingly.  The invariant argument
`hw` (every waiting id belongs to the finite universe) gives termination. -/
def bfsAux (g : Graph) (reached : List Nat) (waiting : List Nat)
    (hw : ∀ x ∈ waiting, x ∈ (bfsUniv g).dedup) : List Nat :=
  match waiting with
  | [] => reached
  | next :: rest =>
    if hnext : next ∈ reached then
      bfsAux g reached rest (fun x hx => hw x (List.mem_cons_of_mem _ hx))
    else
      bfsAux g (reached ++ [next]) ((g.fwdTargets next).reverse ++ rest)
        (fun x hx => by
          rcases List.mem_append.mp hx with hx | hx
          · exact List.mem_dedup.mpr (fwdTargets_subset_bfsUniv g next x
              (List.mem_reverse.mp hx))
          · exact hw x (List.mem_cons_of_mem _ hx))
termination_by
  ((((bfsUniv g).dedup.filter (fun x => decide (x ∉ reached))).length, waiting.length))
decreasing_by
  · apply Prod.Lex.right
    simp
  · apply Prod.Lex.left
    exact filter_not_mem_snoc_lt _ _ _
      (hw next (List.mem_cons_self _ _)) hnext

/-- The set of reachable internal ids, as computed by `getReachableNodes`. -/
def Graph.reachedNodes (g : Graph) : List Nat :=
  bfsAux g [] (rootIds g).reverse
    (fun x hx => List.mem_dedup.mpr
      (rootIds_subset_bfsUniv g x (List.mem_reverse.mp hx)))

/-- Reachability from a local root along forward links. -/
inductive ReachClos (g : Graph) : Nat → Prop where
  | root (x : Nat) (hx : x ∈ rootIds g) : ReachClos g x
  | step (s t : Nat) (hs : ReachClos g s) (ht : t ∈ g.fwdTargets s) :
      ReachClos g t

theorem bfsAux_props (g : Graph) :
    ∀ (reached waiting : List Nat)
      (hw : ∀ x ∈ waiting, x ∈ (bfsUniv g).dedup),
      (∀ x ∈ reached, ReachClos g x) →
      (∀ x ∈ waiting, ReachClos g x) →
      (∀ x ∈ reached, ∀ t ∈ g.fwdTargets x, t ∈ reached ∨ t ∈ waiting) →
      (∀ x ∈ bfsAux g reached waiting hw, ReachClos g x) ∧
      (∀ x, (x ∈ reached ∨ x ∈ waiting) → x ∈ bfsAux g reached waiting hw) ∧
      (∀ x ∈ bfsAux g reached waiting hw, ∀ t ∈ g.fwdTargets x,
        t ∈ bfsAux g reached waiting hw) := by
  intro reached waiting hw
  induction reached, waiting, hw using bfsAux.induct g with
  | case1 reached hw _ =>
    intro hre _hwa hcl
    simp only [bfsAux]
    refine ⟨hre, ?_, ?_⟩
    · intro x hx
      rcases hx with hx | hx
      · exact hx
      · simp at hx
    · intro x hx t ht
      rcases hcl x hx t ht with h | h
      · exact h
      · simp at h
  | case2 reached next rest hw hnext _ ih =>
    intro hre hwa hcl
    simp only [bfsAux, dif_pos hnext]
    have hre2 := hre
    have hwa2 : ∀ x ∈ rest, ReachClos g x :=
      fun x hx => hwa x (List.mem_cons_of_mem _ hx)
    have hcl2 : ∀ x ∈ reached, ∀ t ∈ g.fwdTargets x,
        t ∈ reached ∨ t ∈ rest := by
      intro x hx t ht
      rcases hcl x hx t ht with h | h
      · exact Or.inl h
      · rcases List.mem_cons.mp h with h | h
        · exact Or.inl (h ▸ hnext)
        · exact Or.inr h
    obtain ⟨ihS, ihM, ihC⟩ := ih hre2 hwa2 hcl2
    refine ⟨ihS, ?_, ihC⟩
    · intro x hx
      apply ihM
      rcases hx with hx | hx
      · exact Or.inl hx
      · rcases List.mem_cons.mp hx with hx | hx
        · exact Or.inl (hx ▸ hnext)
        · exact Or.inr hx
  | case3 reached next rest hw hnext _ ih =>
    intro hre hwa hcl
    simp only [bfsAux, dif_neg hnext]
    have hre2 : ∀ x ∈ reached ++ [next], ReachClos g x := by
      intro x hx
      rcases List.mem_append.mp hx with hx | hx
      · exact hre x hx
      · simp only [List.mem_singleton] at hx
        exact hx ▸ hwa next (List.mem_cons_self _ _)
    have hwa2 : ∀ x ∈ (g.fwdTargets next).reverse ++ rest, ReachClos g x := by
      intro x hx
      rcases List.mem_append.mp hx with hx | hx
      · exact ReachClos.step next x (hwa next (List.mem_cons_self _ _))
          (List.mem_reverse.mp hx)
      · exact hwa x (List.mem_cons_of_mem _ hx)
    have hcl2 : ∀ x ∈ reached ++ [next], ∀ t ∈ g.fwdTargets x,
        t ∈ reached ++ [next] ∨ t ∈ (g.fwdTargets next).reverse ++ rest := by
      intro x hx t ht
      rcases List.mem_append.mp hx with hx | hx
      · rcases hcl x hx t ht with h | h
        · exact Or.inl (List.mem_append.mpr (Or.inl h))
        · rcases List.mem_cons.mp h with h | h
          · exact Or.inl (List.mem_append.mpr (Or.inr (by simp [h])))
          · exact Or.inr (List.mem_append.mpr (Or.inr h))
      · simp only [List.mem_singleton] at hx
        subst hx
        exact Or.inr (List.mem_append.mpr (Or.inl (List.mem_reverse.mpr ht)))
    obtain ⟨ihS, ihM, ihC⟩ := ih hre2 hwa2 hcl2
    refine ⟨ihS, ?_, ihC⟩
    · intro x hx
      apply ihM
      rcases hx with hx | hx
      · exact Or.inl (List.mem_append.mpr (Or.inl hx))
      · rcases List.mem_cons.mp hx with hx | hx
        · exact Or.inl (List.mem_append.mpr (Or.inr (by simp [hx])))
        · exact Or.inr (List.mem_append.mpr (Or.inr hx))

theorem reachedNodes_sound (g : Graph) :
    ∀ x ∈ g.reachedNodes, ReachClos g x := by
  have h := bfsAux_props g [] (rootIds g).reverse
    (fun x hx => List.mem_dedup.mpr
      (rootIds_subset_bfsUniv g x (List.mem_reverse.mp hx)))
    (by intro x hx; simp at hx)
    (fun x hx => ReachClos.root x (List.mem_reverse.mp hx))
    (by intro x hx; simp at hx)
  exact h.1

theorem reachedNodes_closed (g : Graph) :
    ∀ x ∈ g.reachedNodes, ∀ t ∈ g.fwdTargets x, t ∈ g.reachedNodes := by
  have h := bfsAux_props g [] (rootIds g).reverse
    (fun x hx => List.mem_dedup.mpr
      (rootIds_subset_bfsUniv g x (List.mem_reverse.mp hx)))
    (by intro x hx; simp at hx)
    (fun x hx => ReachClos.root x (List.mem_reverse.mp hx))
    (by intro x hx; simp at hx)
  exact h.2.2

/-- The sort comparator of `toJson` on nodes, as a "may precede" relation:
`a` may precede `b` when the JS comparator does not return 1, i.e. `a` is not
strictly greater in the (name, version) lexicographic order. -/
def nodeLeB (a b : String × String × Nat) : Bool :=
  !(decide (b.1 < a.1) || (!(decide (a.1 < b.1)) && decide (b.2.1 < a.2.1)))

/-- A public output node: `id` is `Option` because the JS id mapping yields
`undefined` for internal ids outside the mapping. -/
structure PubNode where
  name : String
  version : String
  id : Option Nat
  deriving Repr, DecidableEq

/-- A public output link (ids as in `PubNode`). -/
structure PubLink where
  sourceId : Option Nat
  targetId : Option Nat
  deriving Repr, DecidableEq

/-- A public graph, the result of `toJson`. -/
structure PubGraph where
  nodes : List PubNode
  links : List PubLink
  deriving Repr, DecidableEq

/-- JS `>` on possibly-undefined numbers: comparisons with undefined are
false. -/
def jsGtOpt (x y : Option Nat) : Bool :=
  match x, y with
  | some m, some n => decide (n < m)
  | _, _ => false

/-- JS `<` on possibly-undefined numbers. -/
def jsLtOpt (x y : Option Nat) : Bool :=
  match x, y with
  | some m, some n => decide (m < n)
  | _, _ => false

/-- The sort comparator of `toJson` on links, as a "may precede" relation. -/
def linkLeB (a b : PubLink) : Bool :=
  !(jsGtOpt a.sourceId b.sourceId ||
    (!(jsLtOpt a.sourceId b.sourceId) && jsGtOpt a.targetId b.targetId))

/-- The `idMapping` object: internal id → dense output id.  Built by object
spread, so for duplicate internal ids the last occurrence wins; lookup of an
absent id is `none` (JS `undefined`). -/
def idMap (sorted : List (String × String × Nat)) (internalId : Nat) :
    Option Nat :=
  ((sorted.enum).reverse.find? (fun p => p.2.2.2 = internalId)).map (·.1)

/-- The links of `toJson` before sorting: one entry per (reachable source,
target) pair, in index order. -/
def rawLinks (g : Graph) (reached : List Nat)
    (sorted : List (String × String × Nat)) : List PubLink :=
  ((g.links.map Prod.fst).filter (fun k => k ∈ reached)).flatMap
    (fun sourceId => ((mapGet g.links sourceId).getD []).map
      (fun targetId => ⟨idMap sorted sourceId, idMap sorted targetId⟩))

/-- The `sortedNodes` list of `toJson`: reachability filter followed by the
(name, version) sort. -/
def sortedNodesOf (g : Graph) : List (String × String × Nat) :=
  ((flatIndex g).filter (fun o => o.2.2 ∈ g.reachedNodes)).mergeSort nodeLeB

/-- `Graph.toJson`: reachability filter, (name, version) sort with dense
renumbering, and link sort. -/
def Graph.toJson (g : Graph) : PubGraph :=
  ⟨(sortedNodesOf g).map
      (fun n => PubNode.mk n.1 n.2.1 (idMap (sortedNodesOf g) n.2.2)),
   (rawLinks g g.reachedNodes (sortedNodesOf g)).mergeSort linkLeB⟩

theorem rootIds_sub (g : Graph) :
    ∀ x ∈ rootIds g, x ∈ (flatIndex g).map (fun o => o.2.2) := by
  intro x hx
  simp only [rootIds, List.mem_flatMap, List.mem_map, List.mem_filter] at hx
  obtain ⟨nv, hnv, ve, hve, n, ⟨hn, _⟩, rfl⟩ := hx
  simp only [flatIndex, List.mem_map, List.mem_flatMap]
  exact ⟨(nv.1, ve.1, n.id), ⟨nv, hnv, ve, hve, ⟨n, hn, rfl⟩⟩, rfl⟩

/-- Link targets land in the nodes index (an invariant of resolver-built
graphs: every link is added between indexed nodes). -/
def LinkTargetsIndexed (g : Graph) : Prop :=
  ∀ s t, t ∈ g.fwdTargets s → t ∈ (flatIndex g).map (fun o => o.2.2)

theorem reachClos_mem_indexIds (g : Graph) (h1 : LinkTargetsIndexed g) :
    ∀ x, ReachClos g x → x ∈ (flatIndex g).map (fun o => o.2.2) := by
  intro x hx
  induction hx with
  | root y hy => exact rootIds_sub g y hy
  | step s t _hs ht _ih => exact h1 s t ht

theorem reached_mem_sortedIds (g : Graph) (h1 : LinkTargetsIndexed g) :
    ∀ x ∈ g.reachedNodes, x ∈ (sortedNodesOf g).map (fun o => o.2.2) := by
  intro x hx
  have hidx := reachClos_mem_indexIds g h1 x (reachedNodes_sound g x hx)
  obtain ⟨o, ho, rfl⟩ := List.mem_map.mp hidx
  apply List.mem_map.mpr
  refine ⟨o, ?_, rfl⟩
  unfold sortedNodesOf
  have hf : o ∈ (flatIndex g).filter (fun o => decide (o.2.2 ∈ g.reachedNodes)) :=
    List.mem_filter.mpr ⟨ho, by simpa using hx⟩
  exact (List.mergeSort_perm _ nodeLeB).mem_iff.mpr hf

theorem idMap_mem (sorted : List (String × String × Nat)) (id0 : Nat)
    (h : id0 ∈ sorted.map (fun o => o.2.2)) :
    ∃ i en, idMap sorted id0 = some i ∧ sorted.get? i = some en ∧
      en.2.2 = id0 := by
  obtain ⟨en0, hen0, heq0⟩ := List.mem_map.mp h
  obtain ⟨i0, hi0, hgi0⟩ := List.getElem_of_mem hen0
  have hq0 : sorted.get? i0 = some en0 := by
    rw [List.get?_eq_getElem?, List.getElem?_eq_getElem hi0]
    exact congrArg some hgi0
  have henum : (i0, en0) ∈ sorted.enum := List.mk_mem_enum_iff_get?.mpr hq0
  have hrev : (i0, en0) ∈ sorted.enum.reverse := List.mem_reverse.mpr henum
  have hsome : (sorted.enum.reverse.find?
      (fun p => p.2.2.2 = id0)).isSome = true := by
    rw [List.find?_isSome]
    exact ⟨(i0, en0), hrev, by simp [heq0]⟩
  obtain ⟨p, hp⟩ := Option.isSome_iff_exists.mp hsome
  obtain ⟨pi, pen⟩ := p
  have hpmem := List.mem_of_find?_eq_some hp
  have hpprop := List.find?_some hp
  have hpenum := List.mem_reverse.mp hpmem
  refine ⟨pi, pen, ?_, ?_, ?_⟩
  · unfold idMap
    rw [hp]
    rfl
  · exact List.mk_mem_enum_iff_get?.mp hpenum
  · simpa using hpprop

theorem idMap_get (sorted : List (String × String × Nat))
    (hnd : (sorted.map (fun o => o.2.2)).Nodup)
    (k : Nat) (hk : k < sorted.length) :
    idMap sorted (sorted[k].2.2) = some k := by
  have hmem : sorted[k].2.2 ∈ sorted.map (fun o => o.2.2) :=
    List.mem_map.mpr ⟨sorted[k], List.getElem_mem hk, rfl⟩
  obtain ⟨i, en, hm, hget, hid⟩ := idMap_mem sorted _ hmem
  obtain ⟨hi, hgi⟩ := List.get?_eq_some.mp hget
  have hi2 : i < (sorted.map (fun o => o.2.2)).length := by simpa using hi
  have hk2 : k < (sorted.map (fun o => o.2.2)).length := by simpa using hk
  have hmapi : (sorted.map (fun o => o.2.2))[i] =
      (sorted.map (fun o => o.2.2))[k] := by
    simp only [List.getElem_map]
    rw [show sorted[i] = en from hgi]
    exact hid
  have heq : i = k := (List.Nodup.getElem_inj_iff hnd).mp hmapi
  subst heq
  exact hm

/-- C1: every node emitted by `toJson` corresponds to an internal node
reachable from a local (`isLocal`) root, and every emitted link joins two
reachable internal nodes and carries the output ids of emitted nodes — so
unreachable nodes and their incident links are dropped.  `h1` is the
structural invariant of resolver-built graphs that link targets are indexed
nodes. -/
theorem toJson_reachable_only (g : Graph) (h1 : LinkTargetsIndexed g) :
    (∀ n ∈ (Graph.toJson g).nodes, ∃ o ∈ flatIndex g, ReachClos g o.2.2 ∧
      o.1 = n.name ∧ o.2.1 = n.version) ∧
    (∀ l ∈ (Graph.toJson g).links, ∃ s t i j, t ∈ g.fwdTargets s ∧
      ReachClos g s ∧ ReachClos g t ∧
      l.sourceId = some i ∧ l.targetId = some j ∧
      (∃ ns ∈ (Graph.toJson g).nodes, ns.id = some i) ∧
      (∃ nt ∈ (Graph.toJson g).nodes, nt.id = some j)) := by
  constructor
  · intro n hn
    simp only [Graph.toJson] at hn
    obtain ⟨o, ho, rfl⟩ := List.mem_map.mp hn
    have hfil : o ∈ (flatIndex g).filter
        (fun o => decide (o.2.2 ∈ g.reachedNodes)) := by
      unfold sortedNodesOf at ho
      exact (List.mergeSort_perm _ nodeLeB).mem_iff.mp ho
    obtain ⟨hidx, hreach⟩ := List.mem_filter.mp hfil
    exact ⟨o, hidx, reachedNodes_sound g o.2.2 (by simpa using hreach),
      rfl, rfl⟩
  · intro l hl
    simp only [Graph.toJson] at hl
    have hlraw : l ∈ rawLinks g g.reachedNodes (sortedNodesOf g) :=
      (List.mergeSort_perm _ linkLeB).mem_iff.mp hl
    unfold rawLinks at hlraw
    simp only [List.mem_flatMap, List.mem_map, List.mem_filter] at hlraw
    obtain ⟨s0, ⟨_hs0keys, hs0r⟩, t0, ht0, rfl⟩ := hlraw
    have hs0reached : s0 ∈ g.reachedNodes := by simpa using hs0r
    have ht0fwd : t0 ∈ g.fwdTargets s0 := ht0
    have ht0reached : t0 ∈ g.reachedNodes :=
      reachedNodes_closed g s0 hs0reached t0 ht0fwd
    obtain ⟨i, en, hmi, hgeti, hidi⟩ :=
      idMap_mem (sortedNodesOf g) s0 (reached_mem_sortedIds g h1 s0 hs0reached)
    obtain ⟨j, en2, hmj, hgetj, hidj⟩ :=
      idMap_mem (sortedNodesOf g) t0 (reached_mem_sortedIds g h1 t0 ht0reached)
    obtain ⟨hi, hgi⟩ := List.get?_eq_some.mp hgeti
    obtain ⟨hj, hgj⟩ := List.get?_eq_some.mp hgetj
    refine ⟨s0, t0, i, j, ht0fwd, reachedNodes_sound g s0 hs0reached,
      reachedNodes_sound g t0 ht0reached, hmi, hmj, ?_, ?_⟩
    · refine ⟨PubNode.mk en.1 en.2.1 (idMap (sortedNodesOf g) en.2.2), ?_, ?_⟩
      · simp only [Graph.toJson]
        exact List.mem_map.mpr ⟨en, hgi ▸ (sortedNodesOf g).get_mem _ _, rfl⟩
      · show idMap (sortedNodesOf g) en.2.2 = some i
        rw [hidi]
        exact hmi
    · refine ⟨PubNode.mk en2.1 en2.2.1 (idMap (sortedNodesOf g) en2.2.2), ?_, ?_⟩
      · simp only [Graph.toJson]
        exact List.mem_map.mpr ⟨en2, hgj ▸ (sortedNodesOf g).get_mem _ _, rfl⟩
      · show idMap (sortedNodesOf g) en2.2.2 = some j
        rw [hidj]
        exact hmj

theorem nodeLeB_iff (a b : String × String × Nat) :
    nodeLeB a b = true ↔ ¬ b.1 < a.1 ∧ (a.1 < b.1 ∨ ¬ b.2.1 < a.2.1) := by
  simp only [nodeLeB, Bool.not_eq_true', Bool.or_eq_false_iff,
    Bool.and_eq_false_iff, Bool.not_eq_false', decide_eq_false_iff_not,
    decide_eq_true_eq]

theorem nodeLeB_trans : ∀ a b c : String × String × Nat,
    nodeLeB a b = true → nodeLeB b c = true → nodeLeB a c = true := by
  intro a b c hab hbc
  rw [nodeLeB_iff] at hab hbc ⊢
  obtain ⟨h1ab, h2ab⟩ := hab
  obtain ⟨h1bc, h2bc⟩ := hbc
  constructor
  · exact not_lt.mpr (le_trans (not_lt.mp h1ab) (not_lt.mp h1bc))
  · by_cases hab1 : a.1 < b.1
    · exact Or.inl (lt_of_lt_of_le hab1 (not_lt.mp h1bc))
    · have hvab : ¬ b.2.1 < a.2.1 := h2ab.resolve_left hab1
      by_cases hbc1 : b.1 < c.1
      · exact Or.inl (lt_of_le_of_lt (not_lt.mp h1ab) hbc1)
      · have hvbc : ¬ c.2.1 < b.2.1 := h2bc.resolve_left hbc1
        exact Or.inr (not_lt.mpr (le_trans (not_lt.mp hvab) (not_lt.mp hvbc)))

theorem nodeLeB_total : ∀ a b : String × String × Nat,
    (nodeLeB a b || nodeLeB b a) = true := by
  intro a b
  rw [Bool.or_eq_true, nodeLeB_iff, nodeLeB_iff]
  by_cases h1 : a.1 < b.1
  · exact Or.inl ⟨lt_asymm h1, Or.inl h1⟩
  · by_cases h2 : b.1 < a.1
    · exact Or.inr ⟨h1, Or.inl h2⟩
    · by_cases h3 : b.2.1 < a.2.1
      · exact Or.inr ⟨h1, Or.inr (lt_asymm h3)⟩
      · exact Or.inl ⟨h2, Or.inr h3⟩

/-- The link comparator restricted to defined ids. -/
def pairLe (p q : Nat × Nat) : Bool :=
  !(decide (q.1 < p.1) || (!(decide (p.1 < q.1)) && decide (q.2 < p.2)))

theorem pairLe_iff (p q : Nat × Nat) :
    pairLe p q = true ↔ ¬ q.1 < p.1 ∧ (p.1 < q.1 ∨ ¬ q.2 < p.2) := by
  simp only [pairLe, Bool.not_eq_true', Bool.or_eq_false_iff,
    Bool.and_eq_false_iff, Bool.not_eq_false', decide_eq_false_iff_not,
    decide_eq_true_eq]

theorem pairLe_trans : ∀ a b c : Nat × Nat,
    pairLe a b = true → pairLe b c = true → pairLe a c = true := by
  intro a b c hab hbc
  rw [pairLe_iff] at hab hbc ⊢
  omega

theorem pairLe_total : ∀ a b : Nat × Nat,
    (pairLe a b || pairLe b a) = true := by
  intro a b
  rw [Bool.or_eq_true, pairLe_iff, pairLe_iff]
  omega

theorem linkLeB_some (a b c d : Nat) :
    linkLeB ⟨some a, some b⟩ ⟨some c, some d⟩ = pairLe (a, b) (c, d) := rfl

theorem map_restore (l : List PubLink)
    (h : ∀ x ∈ l, ∃ i j, x = ⟨some i, some j⟩) :
    l.map (fun x => PubLink.mk (some (x.sourceId.getD 0))
      (some (x.targetId.getD 0))) = l := by
  induction l with
  | nil => rfl
  | cons a tl ih =>
    obtain ⟨i, j, rfl⟩ := h a (List.mem_cons_self _ _)
    simp only [List.map_cons, Option.getD_some]
    rw [ih (fun x hx => h x (List.mem_cons_of_mem _ hx))]

theorem rawLinks_all_some (g : Graph) (h1 : LinkTargetsIndexed g) :
    ∀ x ∈ rawLinks g g.reachedNodes (sortedNodesOf g),
      ∃ i j, x = ⟨some i, some j⟩ := by
  intro x hx
  unfold rawLinks at hx
  simp only [List.mem_flatMap, List.mem_map, List.mem_filter] at hx
  obtain ⟨s0, ⟨_hs0keys, hs0r⟩, t0, ht0, rfl⟩ := hx
  have hs0reached : s0 ∈ g.reachedNodes := by simpa using hs0r
  have ht0reached : t0 ∈ g.reachedNodes :=
    reachedNodes_closed g s0 hs0reached t0 ht0
  obtain ⟨i, _, hmi, _, _⟩ :=
    idMap_mem (sortedNodesOf g) s0 (reached_mem_sortedIds g h1 s0 hs0reached)
  obtain ⟨j, _, hmj, _, _⟩ :=
    idMap_mem (sortedNodesOf g) t0 (reached_mem_sortedIds g h1 t0 ht0reached)
  exact ⟨i, j, by rw [hmi, hmj]⟩

/-- C2: the nodes emitted by `toJson` carry exactly the dense ids `0..N-1` in
array order, are sorted by the (name, version) comparator, and the links are
sorted by the (sourceId, targetId) comparator.  `h1` and `h2` are the
structural invariants of resolver-built graphs (link targets are indexed and
indexed ids are distinct). -/
theorem toJson_sorted_and_dense (g : Graph) (h1 : LinkTargetsIndexed g)
    (h2 : ((flatIndex g).map (fun o => o.2.2)).Nodup) :
    ((Graph.toJson g).nodes.map (fun n => n.id) =
      (List.range (Graph.toJson g).nodes.length).map some) ∧
    ((Graph.toJson g).nodes.Pairwise (fun a b =>
      nodeLeB (a.name, a.version, 0) (b.name, b.version, 0) = true)) ∧
    ((Graph.toJson g).links.Pairwise (fun a b => linkLeB a b = true)) := by
  have hndSorted : ((sortedNodesOf g).map (fun o => o.2.2)).Nodup := by
    have hperm : ((sortedNodesOf g).map (fun o => o.2.2)).Perm
        (((flatIndex g).filter
          (fun o => decide (o.2.2 ∈ g.reachedNodes))).map (fun o => o.2.2)) :=
      (List.mergeSort_perm _ nodeLeB).map _
    have hsub : (((flatIndex g).filter
        (fun o => decide (o.2.2 ∈ g.reachedNodes))).map
          (fun o => o.2.2)).Sublist ((flatIndex g).map (fun o => o.2.2)) :=
      (List.filter_sublist _).map _
    exact hperm.nodup_iff.mpr (hsub.nodup h2)
  refine ⟨?_, ?_, ?_⟩
  · simp only [Graph.toJson, List.map_map]
    apply List.ext_get
    · simp
    · intro n hn1 hn2
      simp only [List.get_eq_getElem, List.getElem_map, Function.comp_apply,
        List.getElem_range]
      have hn : n < (sortedNodesOf g).length := by simpa using hn1
      exact idMap_get (sortedNodesOf g) hndSorted n hn
  · simp only [Graph.toJson]
    apply List.Pairwise.map
      (R := fun a b : String × String × Nat => nodeLeB a b = true)
    · intro a b hab
      exact hab
    · exact List.sorted_mergeSort nodeLeB_trans nodeLeB_total _
  · simp only [Graph.toJson]
    have hall := rawLinks_all_some g h1
    have hrestore := map_restore _ hall
    have hcompat : ∀ a ∈ (rawLinks g g.reachedNodes (sortedNodesOf g)).map
          (fun x => (x.sourceId.getD 0, x.targetId.getD 0)),
        ∀ b ∈ (rawLinks g g.reachedNodes (sortedNodesOf g)).map
          (fun x => (x.sourceId.getD 0, x.targetId.getD 0)),
        pairLe a b = linkLeB (PubLink.mk (some a.1) (some a.2))
          (PubLink.mk (some b.1) (some b.2)) := by
      intro a _ b _
      rfl
    have hmapms := List.map_mergeSort
      (f := fun p : Nat × Nat => PubLink.mk (some p.1) (some p.2)) hcompat
    have hkey : (rawLinks g g.reachedNodes (sortedNodesOf g)).mergeSort
        linkLeB = (((rawLinks g g.reachedNodes (sortedNodesOf g)).map
          (fun x => (x.sourceId.getD 0, x.targetId.getD 0))).mergeSort
            pairLe).map (fun p => PubLink.mk (some p.1) (some p.2)) := by
      rw [hmapms, List.map_map]
      have : ((rawLinks g g.reachedNodes (sortedNodesOf g)).map
          ((fun p : Nat × Nat => PubLink.mk (some p.1) (some p.2)) ∘
            (fun x => (x.sourceId.getD 0, x.targetId.getD 0)))) =
          rawLinks g g.reachedNodes (sortedNodesOf g) := hrestore
      rw [this]
    rw [hkey]
    apply List.Pairwise.map (R := fun a b : Nat × Nat => pairLe a b = true)
    · intro a b hab
      rw [linkLeB_some a.1 a.2 b.1 b.2]
      simpa using hab
    · exact List.sorted_mergeSort pairLe_trans pairLe_total _

/-- Concrete two-node graph (local A linking to remote B) used by the
projection witnesses. -/
def c1Graph : Graph :=
  ((Graph.empty.addNode "A" "1.0.0" true).addNode "B" "1.0.0" false).addLink 0 1

theorem c1Graph_linkTargets : LinkTargetsIndexed c1Graph := by
  intro s t ht
  have hlinks : c1Graph.links = [(0, [1])] := by decide
  unfold Graph.fwdTargets at ht
  rw [hlinks] at ht
  by_cases hs : (0 : Nat) = s
  · subst hs
    simp [mapGet] at ht
    subst ht
    decide
  · simp [mapGet, hs] at ht

/-- Witness for C1 at a concrete graph. -/
theorem toJson_reachable_only_witness :
    (∀ n ∈ c1Graph.toJson.nodes, ∃ o ∈ flatIndex c1Graph,
      ReachClos c1Graph o.2.2 ∧ o.1 = n.name ∧ o.2.1 = n.version) ∧
    (∀ l ∈ c1Graph.toJson.links, ∃ s t i j, t ∈ c1Graph.fwdTargets s ∧
      ReachClos c1Graph s ∧ ReachClos c1Graph t ∧
      l.sourceId = some i ∧ l.targetId = some j ∧
      (∃ ns ∈ c1Graph.toJson.nodes, ns.id = some i) ∧
      (∃ nt ∈ c1Graph.toJson.nodes, nt.id = some j)) :=
  toJson_reachable_only c1Graph c1Graph_linkTargets

/-- Witness for C2 at a concrete graph. -/
theorem toJson_sorted_and_dense_witness :
    (c1Graph.toJson.nodes.map (fun n => n.id) =
      (List.range c1Graph.toJson.nodes.length).map some) ∧
    (c1Graph.toJson.nodes.Pairwise (fun a b =>
      nodeLeB (a.name, a.version, 0) (b.name, b.version, 0) = true)) ∧
    (c1Graph.toJson.links.Pairwise (fun a b => linkLeB a b = true)) :=
  toJson_sorted_and_dense c1Graph c1Graph_linkTargets (by decide)

/-! ## The local package store installer (local-package-store/src/index.ts)

The file system visible to the installer is modelled as a finite map from
the absolute path strings the installer actually stats to directory trees.
`fs.statSync` on a path that is not in the map throws, which the embedding
reflects with `none`. -/

/-- A directory tree: a plain file, or a directory with named entries. -/
inductive FsTree : Type where
  | file : FsTree
  | dir : List (String × FsTree) → FsTree

/-- The file system: association list from path to tree. -/
abbrev Fs := List (String × FsTree)

/-- `fs.statSync` / `fs.promises.stat` : `none` models the thrown error. -/
def statSync (fs : Fs) (p : String) : Option FsTree :=
  mapGet fs p

/-- `path.isAbsolute` on posix paths. -/
def isAbsolute (p : String) : Bool :=
  match p.toList with
  | [] => false
  | c :: _ => c == '/'

/-- `path.join` of two segments (posix). -/
def pathJoin (a b : String) : String :=
  a ++ "/" ++ b

/-- `path.dirname` (posix): drop the last `/`-separated segment. -/
def pathDirname (p : String) : String :=
  String.mk ((p.toList.reverse.dropWhile (fun c => ! (c == '/'))).drop 1).reverse

/-- A node of the installer's input graph (local-package-store/src/graph.ts).
The optional `keepInPlace` flag is modelled as a `Bool` (absent = `false`,
matching its truthiness uses); the optional `bins` object as an optional
association list in key insertion order. -/
structure StoreNode where
  key : String
  name : String
  keepInPlace : Bool
  bins : Option (List (String × String))
  location : String
  deriving Repr, DecidableEq

/-- A link of the installer's input graph. -/
structure StoreLink where
  source : String
  target : String
  deriving Repr, DecidableEq

/-- The installer's input graph. -/
structure StoreGraph where
  nodes : List StoreNode
  links : List StoreLink
  deriving Repr, DecidableEq

/-- Options of `installLocalStore`. -/
structure Options where
  filesToExclude : Option (List String)
  ignoreBinConflicts : Option Bool
  deriving Repr, DecidableEq

/-- `Set.add` : append if not already present (iteration order = insertion). -/
def setAdd {α : Type} [DecidableEq α] (l : List α) (x : α) : List α :=
  if x ∈ l then l else l ++ [x]

/-- Dedup a list keeping first occurrences, like collecting it into a `Set`. -/
def dedupList {α : Type} [DecidableEq α] (l : List α) : List α :=
  l.foldl setAdd []

/-- `Object.keys` of a JavaScript object modelled as an association list:
each distinct key once, in insertion order. -/
def objKeys (bins : List (String × String)) : List String :=
  dedupList (bins.map (fun b => b.1))

/-- Keys of the nodes of a graph (`graph.nodes.map(n => n.key)`). -/
def keysOf (g : StoreGraph) : List String :=
  g.nodes.map (fun n => n.key)

/-- `findDups` : first element of the array that occurs again later. -/
def findDups {α : Type} [DecidableEq α] : List α → Option α
  | [] => none
  | x :: tail => if x ∈ tail then some x else findDups tail

/-- First character class of the name part of the package-name pattern
(`[a-zA-Z0-9-~]`). -/
def mainStartChar (c : Char) : Bool :=
  c.isAlpha || c.isDigit || c == '-' || c == '~'

/-- Remaining character class of the name part (`[a-zA-Z0-9-._~]`). -/
def mainChar (c : Char) : Bool :=
  mainStartChar c || c == '.' || c == '_'

/-- First character class of the scope part (`[a-z0-9-~]`). -/
def scopeStartChar (c : Char) : Bool :=
  c.isLower || c.isDigit || c == '-' || c == '~'

/-- Remaining character class of the scope part (`[a-z0-9-._~]`). -/
def scopeChar (c : Char) : Bool :=
  scopeStartChar c || c == '.' || c == '_'

/-- Matches a character sequence against `start rest*`. -/
def partMatches (startP restP : Char → Bool) : List Char → Bool
  | [] => false
  | c :: rest => startP c && rest.all restP

/-- Split a character list at its first `/`. -/
def splitAtSlash : List Char → Option (List Char × List Char)
  | [] => none
  | c :: rest =>
    if c = '/' then some ([], rest)
    else (splitAtSlash rest).map (fun p => (c :: p.1, p.2))

/-- Full-string match of the package-name pattern
`(@[a-z0-9-~][a-z0-9-._~]* then a slash)? [a-zA-Z0-9-~][a-zA-Z0-9-._~]*`:
an optional scope part introduced by `@` and closed by the only allowed
slash, then the name part; no class contains `/` or `@`. -/
def validPackageName (s : String) : Bool :=
  match s.toList with
  | '@' :: rest =>
    match splitAtSlash rest with
    | none => false
    | some (scope, nm) =>
      partMatches scopeStartChar scopeChar scope &&
        partMatches mainStartChar mainChar nm
  | cs => partMatches mainStartChar mainChar cs

/-- `getLocationError` : validation of the store location. -/
def getLocationError (fs : Fs) (location : String) : Option String :=
  if ! isAbsolute location then
    some ("Location is not an absolute path: \"" ++ location ++ "\"")
  else
    match statSync fs location with
    | none => some ("Location does not exist: \"" ++ location ++ "\"")
    | some FsTree.file =>
      some ("Location is not a directory: \"" ++ location ++ "\"")
    | some (FsTree.dir entries) =>
      if 0 < entries.length then
        some ("Location is not an empty directory: \"" ++ location ++ "\"")
      else none

/-- A node location that exists and is not a directory (the stat-throwing
case of a missing location is treated separately, i.e. passes this check). -/
def isNonDirFile (fs : Fs) (loc : String) : Bool :=
  match statSync fs loc with
  | some FsTree.file => true
  | _ => false

/-- Name of the node with the given key, as `keyToNameMap` resolves it
(`Map.set` in node order: the last node with the key wins). -/
def keyToName (g : StoreGraph) (k : String) : Option String :=
  mapGet (g.nodes.map (fun n => (n.key, n.name))).reverse k

/-- Loop of `findDependenciesWithSameName` over the links, carrying the
per-source set of already-seen target names.  A missing target key yields
the name `undefined` (`none`), which participates in the set like any
value. -/
def fdwsnAux (g : StoreGraph) :
    List StoreLink → List (String × List (Option String)) →
      List (String × Option String)
  | [], _ => []
  | l :: rest, deps =>
    let targetName := keyToName g l.target
    match mapGet deps l.source with
    | none => fdwsnAux g rest (mapSet deps l.source [targetName])
    | some cur =>
      if targetName ∈ cur then (l.source, targetName) :: fdwsnAux g rest deps
      else fdwsnAux g rest (mapSet deps l.source (cur ++ [targetName]))

/-- `findDependenciesWithSameName` : (source, duplicated target name) pairs
in link order. -/
def findDependenciesWithSameName (g : StoreGraph) :
    List (String × Option String) :=
  fdwsnAux g g.links []

/-- Rendering of a possibly-`undefined` string in a template literal. -/
def optToStr : Option String → String
  | some s => s
  | none => "undefined"

/-- `getGraphError` : the seven graph checks, in the order the code runs
them: duplicate keys, non-absolute node location, invalid package name,
node location that exists but is not a directory, invalid link source,
invalid link target, duplicate dependency names. -/
def getGraphError (fs : Fs) (g : StoreGraph) : Option String :=
  match findDups (keysOf g) with
  | some dupKey =>
    some ("Multiple nodes have the following key: \"" ++ dupKey ++ "\"")
  | none =>
  match (g.nodes.filter (fun n => ! isAbsolute n.location)).head? with
  | some n =>
    some ("Location of a node is not absolute: \"" ++ n.location ++ "\"")
  | none =>
  match (g.nodes.filter (fun n => ! validPackageName n.name)).head? with
  | some n => some ("Package name invalid: \"" ++ n.name ++ "\"")
  | none =>
  match (g.nodes.filter (fun n => isNonDirFile fs n.location)).head? with
  | some n =>
    some ("Location of a node is not a directory: \"" ++ n.location ++ "\"")
  | none =>
  match (g.links.filter (fun l => decide (¬ l.source ∈ keysOf g))).head? with
  | some l => some ("Invalid link source: \"" ++ l.source ++ "\"")
  | none =>
  match (g.links.filter (fun l => decide (¬ l.target ∈ keysOf g))).head? with
  | some l => some ("Invalid link target: \"" ++ l.target ++ "\"")
  | none =>
  match findDependenciesWithSameName g with
  | d :: _ =>
    some ("Package \"" ++ d.1 ++ "\" depends on multiple packages called \"" ++
      optToStr d.2 ++ "\"")
  | [] => none

/-- Bin-name errors of one node: the invalid names of its `bins` object, as
optional messages with the defined ones kept. -/
def binNameErrors (node : StoreNode) : List (Option String) :=
  match node.bins with
  | none => []
  | some bins =>
    ((objKeys bins).map (fun binName =>
      if binName.toList.any (fun c => c == '/' || c == '\\' || c == '\n') then
        some ("Package \"" ++ node.key ++
          "\" exposes a bin script with an invalid name: \"" ++ binName ++ "\"")
      else none)).filter (fun o => o ≠ none)

/-- The set of bin names of a node (`Object.keys` collected into a `Set`). -/
def binNameSet (node : StoreNode) : List String :=
  objKeys (node.bins.getD [])

/-- `binsMap` of the bin checks: every node key mapped to its bin-name set
(last node with a key wins, `Map.set` semantics). -/
def binsMapOf (g : StoreGraph) : List (String × List String) :=
  g.nodes.foldl (fun m n => mapSet m n.key (binNameSet n)) []

/-- `installedBinMap` before the link loop: every node key mapped to the
empty set. -/
def installedBinMap0 (g : StoreGraph) : List (String × List String) :=
  g.nodes.foldl (fun m n => mapSet m n.key []) []

/-- One bin of one link in the collision loop: flag a collision when the
name is already installed at the source (unless conflicts are ignored),
then add the name to the source's installed set. -/
def binCollStep (ignoreBinConflicts : Option Bool) (source : String)
    (p : List String × List String) (binName : String) :
    List String × List String :=
  ( setAdd p.1 binName,
    if binName ∈ p.1 ∧ ¬ ignoreBinConflicts = some true then
      p.2 ++ ["Several different scripts called \"" ++ binName ++
        "\" need to be installed at the same location (" ++ source ++ ")."]
    else p.2 )

/-- Link loop of the bin-collision check.  `binsMap.get(target)!` on a
missing key throws (`none`); `installedBinMap.get(source)!` is only reached
when the target has at least one bin name. -/
def binCollAux (binsMap : List (String × List String))
    (ignoreBinConflicts : Option Bool) :
    List StoreLink → List (String × List String) → Option (List String)
  | [], _ => some []
  | l :: rest, installed =>
    match mapGet binsMap l.target with
    | none => none
    | some targetBins =>
      match targetBins with
      | [] => binCollAux binsMap ignoreBinConflicts rest installed
      | _ :: _ =>
        match mapGet installed l.source with
        | none => none
        | some cur =>
          match targetBins.foldl (binCollStep ignoreBinConflicts l.source)
              (cur, []) with
          | (newSet, errs) =>
            match binCollAux binsMap ignoreBinConflicts rest
                (mapSet installed l.source newSet) with
            | none => none
            | some more => some (errs ++ more)

/-- `getBinError` : invalid bin names first (first non-empty per-node error
group wins), then the first bin collision over the declared links.  The
outer `none` models a thrown `TypeError`, `some none` a passed check. -/
def getBinError (g : StoreGraph) (ignoreBinConflicts : Option Bool) :
    Option (Option String) :=
  match (g.nodes.map binNameErrors).filter (fun a => decide (0 < a.length)) with
  | group :: _ =>
    match group with
    | some e :: _ => some (some e)
    | _ => none
  | [] =>
    match binCollAux (binsMapOf g) ignoreBinConflicts g.links
        (installedBinMap0 g) with
    | none => none
    | some errs =>
      match errs with
      | e :: _ => some (some e)
      | [] => some none

/-- `validateInput` : location error, then graph error, then bin error;
`some (some e)` is a thrown validation error `e`, `some none` success,
`none` a crash inside the bin check. -/
def validateInput (fs : Fs) (graph : StoreGraph) (location : String)
    (ignoreBinConflicts : Option Bool) : Option (Option String) :=
  match getLocationError fs location with
  | some e => some (some e)
  | none =>
    match getGraphError fs graph with
    | some e => some (some e)
    | none => getBinError graph ignoreBinConflicts

/-- Disk mutations and script executions performed by the installer, in
order: directory creation, removal, file copy, symlink, bin shim, and the
lifecycle scripts of a condensed component or of a node. -/
inductive FsAction : Type where
  | mkdir : String → FsAction
  | rmdir : String → FsAction
  | copyFile : String → String → FsAction
  | symlink : String → String → FsAction
  | shim : String → String → FsAction
  | componentScripts : List String → FsAction
  | nodeScripts : String → FsAction
  deriving Repr, DecidableEq

/-- Final outcome of an `installLocalStore` run: normal completion, a thrown
validation error message, or a crash (non-validation exception). -/
inductive Outcome : Type where
  | ok : Outcome
  | err : String → Outcome
  | crash : Outcome
  deriving Repr, DecidableEq

/-- `copyDir` over the entries of a directory: subdirectories are created
during the scan (recursing without the exclusion list, which only applies
at the top level), file copies are deferred to `filesActions`.  Returns
(scan actions, deferred copy actions). -/
def copyEntries (src dest : String) (excl : Option (List String)) :
    List (String × FsTree) → List FsAction × List FsAction
  | [] => ([], [])
  | (nm, FsTree.file) :: rest =>
    let p := copyEntries src dest excl rest
    let copies :=
      match excl with
      | none => [FsAction.copyFile (pathJoin src nm) (pathJoin dest nm)]
      | some l =>
        if nm ∈ l then []
        else [FsAction.copyFile (pathJoin src nm) (pathJoin dest nm)]
    (p.1, copies ++ p.2)
  | (nm, FsTree.dir entries) :: rest =>
    let sub := copyEntries (pathJoin src nm) (pathJoin dest nm) none entries
    let p := copyEntries src dest excl rest
    (FsAction.mkdir (pathJoin dest nm) :: (sub.1 ++ p.1), sub.2 ++ p.2)

/-- `installNodesInStore` for one node: a `keepInPlace` node has its
`node_modules` removed in place; otherwise its store directory is created
and its location copied over (`readdirSync` throws if the location is not
an existing directory).  Also yields the node's `locationMap` entry. -/
def installNode (fs : Fs) (location : String) (excl : Option (List String))
    (n : StoreNode) : Option (List FsAction × List FsAction × (String × String)) :=
  let destination := if n.keepInPlace then n.location else pathJoin location n.key
  if n.keepInPlace then
    some ([FsAction.rmdir (pathJoin destination "node_modules")], [],
      (n.key, destination))
  else
    match statSync fs n.location with
    | some (FsTree.dir entries) =>
      let p := copyEntries n.location destination excl entries
      some (FsAction.mkdir destination :: p.1, p.2, (n.key, destination))
    | _ => none

/-- `installNodesInStore` over all nodes: concatenated scan actions,
deferred copy actions, and the location map. -/
def installNodes (fs : Fs) (location : String) (excl : Option (List String)) :
    List StoreNode → Option (List FsAction × List FsAction × List (String × String))
  | [] => some ([], [], [])
  | n :: rest =>
    match installNode fs location excl n with
    | none => none
    | some (d, f, e) =>
      match installNodes fs location excl rest with
      | none => none
      | some (dr, fr, lm) => some (d ++ dr, f ++ fr, e :: lm)

/-- `addSelfLinks` : drop declared self links, then add one self link per
node. -/
def addSelfLinks (graph : StoreGraph) : StoreGraph :=
  ⟨graph.nodes,
    graph.links.filter (fun l => decide (¬ l.source = l.target)) ++
      graph.nodes.map (fun n => ⟨n.key, n.key⟩)⟩

/-- `linkNodes` : for each link, create the parent directory of the
symlink and the symlink itself in the source's `node_modules`, named after
the target's package name.  A missing target node or location-map entry
crashes (`undefined` dereference). -/
def linkNodesAux (g : StoreGraph) (locMap : List (String × String)) :
    List StoreLink → Option (List FsAction)
  | [] => some []
  | l :: rest =>
    match g.nodes.find? (fun n => decide (n.key = l.target)) with
    | none => none
    | some tn =>
      match mapGet locMap l.source, mapGet locMap l.target with
      | some src, some tgt =>
        match linkNodesAux g locMap rest with
        | none => none
        | some acts =>
          some (FsAction.mkdir
              (pathDirname (pathJoin (pathJoin src "node_modules") tn.name)) ::
            FsAction.symlink tgt (pathJoin (pathJoin src "node_modules") tn.name)
              :: acts)
      | _, _ => none

/-- Bin map of `createBins`: only nodes that have a `bins` object get an
entry, accumulated with `Map.set` per bin name. -/
def createBinsMap (g : StoreGraph) : List (String × List (String × String)) :=
  g.nodes.foldl (fun m n =>
    match n.bins with
    | none => m
    | some bins =>
      mapSet m n.key
        (bins.foldl (fun acc b => mapSet acc b.1 b.2) ((mapGet m n.key).getD []))) []

/-- Navigate a directory tree along path segments. -/
def navigateTree : FsTree → List String → Option FsTree
  | t, [] => some t
  | FsTree.dir entries, seg :: rest =>
    match mapGet entries seg with
    | none => none
    | some t => navigateTree t rest
  | FsTree.file, _ :: _ => none

/-- Whether the `stat` of a bin file of the target package succeeds.  The
stat runs against the installed copy of the package; the copy mirrors the
package's source directory, so the check is resolved by navigating the
source tree of the target node along the bin's relative path. -/
def binExists (fs : Fs) (g : StoreGraph) (targetKey binLocation : String) :
    Bool :=
  match g.nodes.find? (fun n => decide (n.key = targetKey)) with
  | none => false
  | some n =>
    match statSync fs n.location with
    | none => false
    | some t =>
      (navigateTree t
        ((binLocation.splitOn "/").filter
          (fun s => ! (s == "" || s == ".")))).isSome

/-- `createBins` over the links: a link whose target has no bin entry is
skipped; otherwise the `.bin` directory of the source is created and one
shim is added per bin of the target whose file exists.  A missing
location-map entry crashes. -/
def createBinsAux (fs : Fs) (g : StoreGraph)
    (binsMap : List (String × List (String × String)))
    (locMap : List (String × String)) : List StoreLink → Option (List FsAction)
  | [] => some []
  | l :: rest =>
    match mapGet binsMap l.target with
    | none => createBinsAux fs g binsMap locMap rest
    | some bins =>
      match mapGet locMap l.source, mapGet locMap l.target with
      | some src, some tgt =>
        let binActs := bins.flatMap (fun b =>
          if binExists fs g l.target b.2 then
            [FsAction.shim (pathJoin tgt b.2)
              (pathJoin (pathJoin (pathJoin src "node_modules") ".bin") b.1)]
          else [])
        match createBinsAux fs g binsMap locMap rest with
        | none => none
        | some acts =>
          some (FsAction.mkdir (pathJoin (pathJoin src "node_modules") ".bin") ::
            binActs ++ acts)
      | _, _ => none

/-- `createBins` phase. -/
def createBins (fs : Fs) (g : StoreGraph) (locMap : List (String × String)) :
    Option (List FsAction) :=
  createBinsAux fs g (createBinsMap g) locMap g.links

/-! ### Condensation of the on-disk graph (graphToTree.ts)

The external `strongly-connected-components` package is abstracted as an
arbitrary function `sccFn` from the adjacency list to its output record. -/

/-- A node of the graph type `convertGraphToTree` expects: a key and an
optional root flag. -/
structure TreeNode where
  key : String
  isRoot : Option Bool
  deriving Repr, DecidableEq

/-- The input graph of `convertGraphToTree`. -/
structure TreeGraph where
  nodes : List TreeNode
  links : List StoreLink
  deriving Repr, DecidableEq

/-- Output record of the `strongly-connected-components` package. -/
structure SccOut where
  components : List (List Nat)
  adjacencyList : List (List Nat)
  deriving Repr, DecidableEq

/-- The condensed tree: component index mapped to (keys, dependencies),
plus the indices of the root components. -/
structure CompTree where
  components : List (Nat × (List String × List Nat))
  rootComponents : List Nat
  deriving Repr, DecidableEq

/-- `nodeToIndex` : key of a node mapped to its index (`Map.set` in node
order: for a duplicated key the last index wins). -/
def nodeToIndex (nodes : List TreeNode) : List (String × Nat) :=
  nodes.enum.foldl (fun m p => mapSet m p.2.key p.1) []

/-- `indexToRoot` lookup with JavaScript truthiness: an absent index or an
absent/false flag count as not-root. -/
def indexToRoot (g : TreeGraph) (i : Nat) : Bool :=
  ((g.nodes.get? i).map (fun n => n.isRoot.getD false)).getD false

/-- Adjacency-list construction over the links: both endpoints are resolved
through `nodeToIndex` (a missing key crashes), and the target index is
pushed onto the source's row. -/
def buildAdj (n2i : List (String × Nat)) :
    List StoreLink → List (List Nat) → Option (List (List Nat))
  | [], gr => some gr
  | l :: rest, gr =>
    match mapGet n2i l.target with
    | none => none
    | some ti =>
      match mapGet n2i l.source with
      | none => none
      | some si => buildAdj n2i rest (gr.set si ((gr.get? si).getD [] ++ [ti]))

/-- The adjacency list `convertGraphToTree` feeds to the scc package. -/
def treeAdjacency (g : TreeGraph) : Option (List (List Nat)) :=
  buildAdj (nodeToIndex g.nodes) g.links (g.nodes.map (fun _ => []))

/-- Keys of the nodes of one scc component (`indexToNode.get(j)!` : a
dangling index crashes). -/
def componentKeys (nodes : List TreeNode) : List Nat → Option (List String)
  | [] => some []
  | i :: rest =>
    match nodes.get? i with
    | none => none
    | some n =>
      match componentKeys nodes rest with
      | none => none
      | some ks => some (n.key :: ks)

/-- Keys of all scc components. -/
def componentsKeys (nodes : List TreeNode) :
    List (List Nat) → Option (List (List String))
  | [] => some []
  | c :: rest =>
    match componentKeys nodes c, componentsKeys nodes rest with
    | some ks, some kss => some (ks :: kss)
    | _, _ => none

/-- `convertGraphToTree` : build the adjacency list, condense it with the
scc package, mark as root every component containing an index whose node
has a truthy `isRoot`, and attach the condensed dependencies (an scc
adjacency row without a matching component crashes). -/
def convertGraphToTree (sccFn : List (List Nat) → SccOut) (g : TreeGraph) :
    Option CompTree :=
  match treeAdjacency g with
  | none => none
  | some adj =>
    let out := sccFn adj
    match componentsKeys g.nodes out.components with
    | none => none
    | some keysList =>
      if out.components.length < out.adjacencyList.length then none
      else some
        { components := keysList.enum.map (fun p =>
            (p.1, (p.2, (out.adjacencyList.get? p.1).getD [])))
          rootComponents := (out.components.enum.filter (fun p =>
            p.2.any (fun i => indexToRoot g i))).map (fun p => p.1) }

/-- The structural coercion `runScripts` applies when it passes the store
graph to `convertGraphToTree`: the store's `Node` type has no `isRoot`
field, so every node arrives with `isRoot` undefined. -/
def storeToTreeGraph (g : StoreGraph) : TreeGraph :=
  ⟨g.nodes.map (fun n => ⟨n.key, none⟩), g.links⟩

/-- Script actions of `runScripts` : the lifecycle scripts of each
condensed component (via `executeTree`), then the per-node script pass. -/
def runScriptsActions (sccFn : List (List Nat) → SccOut) (g : StoreGraph) :
    Option (List FsAction) :=
  match convertGraphToTree sccFn (storeToTreeGraph g) with
  | none => none
  | some tree =>
    some ((tree.components.map (fun c => FsAction.componentScripts c.2.1)) ++
      g.nodes.map (fun n => FsAction.nodeScripts n.key))

/-- The mutation phases of `installLocalStore`, run only after validation:
node installation (scan actions then flushed file copies), self-link
augmentation, symlinking, bin creation, lifecycle scripts. -/
def installPhases (sccFn : List (List Nat) → SccOut) (fs : Fs)
    (graph : StoreGraph) (location : String) (excl : Option (List String)) :
    Option (List FsAction) :=
  match installNodes fs location excl graph.nodes with
  | none => none
  | some (dirActs, fileActs, locMap) =>
    let newGraph := addSelfLinks graph
    match linkNodesAux newGraph locMap newGraph.links with
    | none => none
    | some linkActs =>
      match createBins fs newGraph locMap with
      | none => none
      | some binActs =>
        match runScriptsActions sccFn newGraph with
        | none => none
        | some scriptActs =>
          some (dirActs ++ fileActs ++ linkActs ++ binActs ++ scriptActs)

/-- `installLocalStore` : validate the input completely, then perform the
mutation phases.  The result is the ordered list of disk/script actions
together with the outcome; a validation failure throws before any action,
a crash inside validation or the phases is `Outcome.crash` (actions past a
crash are not modelled, no claim depends on them). -/
def installLocalStore (sccFn : List (List Nat) → SccOut) (fs : Fs)
    (graph : StoreGraph) (location : String) (options : Option Options) :
    List FsAction × Outcome :=
  match validateInput fs graph location
      (options.bind (fun o => o.ignoreBinConflicts)) with
  | none => ([], Outcome.crash)
  | some (some e) => ([], Outcome.err e)
  | some none =>
    match installPhases sccFn fs graph location
        (options.bind (fun o => o.filesToExclude)) with
    | none => ([], Outcome.crash)
    | some acts => (acts, Outcome.ok)

/-- Stand-in for the scc package where its output is never consumed. -/
def sccTrivial : List (List Nat) → SccOut := fun _ => ⟨[], []⟩

/-- C3: validation runs to completion before the first
mkdir/copy/remove/symlink/shim/script action of `installLocalStore`:
whenever `validateInput` throws a validation error `e`, the run fails with
`e` and its action trace is empty, so the store directory and every node
location are untouched. -/
theorem installLocalStore_validation_precedes_actions
    (sccFn : List (List Nat) → SccOut) (fs : Fs) (g : StoreGraph)
    (loc : String) (opts : Option Options) (e : String)
    (h : validateInput fs g loc (opts.bind (fun o => o.ignoreBinConflicts)) =
      some (some e)) :
    installLocalStore sccFn fs g loc opts = ([], Outcome.err e) := by
  unfold installLocalStore
  rw [h]

/-- Witness for C3: a relative store path fails validation and produces an
empty action trace. -/
theorem installLocalStore_validation_precedes_actions_witness :
    installLocalStore sccTrivial [] ⟨[], []⟩ "myDir" none =
      ([], Outcome.err "Location is not an absolute path: \"myDir\"") :=
  installLocalStore_validation_precedes_actions sccTrivial [] ⟨[], []⟩ "myDir"
    none _ (by decide)

/-- File system of the validation-order scenario: the location `/a` exists
and is a file, the store `/store` is an empty directory. -/
def c7Fs : Fs := [("/a", FsTree.file), ("/store", FsTree.dir [])]

/-- Graph of the validation-order scenario: node `A` has a valid name and a
file location, node `B` has an invalid name. -/
def c7Graph : StoreGraph :=
  ⟨[⟨"A", "a", false, none, "/a"⟩, ⟨"B", "!", false, none, "/b"⟩], []⟩

/-- C7 counterexample: an input containing both a node whose location
exists and is not a directory and a node whose name fails the name
pattern makes `installLocalStore` fail with the `Package name invalid`
message, not the claimed `Location of a node is not a directory` one:
the code checks names before location directory-ness. -/
theorem installLocalStore_directory_vs_name_cex :
    installLocalStore sccTrivial c7Fs c7Graph "/store" none =
      ([], Outcome.err "Package name invalid: \"!\"") ∧
    isNonDirFile c7Fs "/a" = true ∧
    (c7Graph.nodes.map (fun n => n.location)).contains "/a" = true ∧
    validPackageName "a" = true ∧
    "Package name invalid: \"!\"" ≠
      "Location of a node is not a directory: \"/a\"" := by
  refine ⟨by decide, by decide, by decide, by decide, by decide⟩

/-- C7 (amended): `getGraphError` checks package-name validity before
location directory-ness.  With unique keys and only absolute node
locations, whenever some node fails the name pattern the reported error is
`Package name invalid` for the first such node, for every file system — in
particular also when another node's location exists and is not a
directory. -/
theorem getGraphError_name_before_directory (fs : Fs) (g : StoreGraph)
    (n0 : StoreNode)
    (hdup : findDups (keysOf g) = none)
    (habs : (g.nodes.filter (fun n => ! isAbsolute n.location)).head? = none)
    (hname : (g.nodes.filter (fun n => ! validPackageName n.name)).head? =
      some n0) :
    getGraphError fs g =
      some ("Package name invalid: \"" ++ n0.name ++ "\"") := by
  simp [getGraphError, hdup, habs, hname]

/-- Witness for the amended C7: on the two-violation scenario the name
error is reported. -/
theorem getGraphError_name_before_directory_witness :
    getGraphError c7Fs c7Graph = some "Package name invalid: \"!\"" := by
  have h := getGraphError_name_before_directory c7Fs c7Graph
    ⟨"B", "!", false, none, "/b"⟩ (by decide) (by decide) (by decide)
  exact h

/-- Root flag is always false for a coerced store graph: the store node
type has no `isRoot` field. -/
theorem storeToTree_indexToRoot (g : StoreGraph) (i : Nat) :
    indexToRoot (storeToTreeGraph g) i = false := by
  cases h : g.nodes[i]? <;>
    simp [indexToRoot, storeToTreeGraph, List.get?_eq_getElem?,
      List.getElem?_map, h]

/-- C8 (amended): `convertGraphToTree` marks component `j` as a root
component exactly when the scc component `j` contains an index whose node
has a truthy `isRoot` flag; and since the installer's node type carries no
`isRoot` field, the tree computed from any store graph in `runScripts` has
empty `rootComponents` — no install run ever has a root component. -/
theorem convertGraphToTree_rootComponents :
    (∀ (sccFn : List (List Nat) → SccOut) (g : TreeGraph)
      (adj : List (List Nat)) (t : CompTree),
      treeAdjacency g = some adj → convertGraphToTree sccFn g = some t →
      ∀ j : Nat, j ∈ t.rootComponents ↔
        ∃ c, (sccFn adj).components.get? j = some c ∧
          c.any (fun i => indexToRoot g i) = true) ∧
    (∀ (sccFn : List (List Nat) → SccOut) (g : StoreGraph) (t : CompTree),
      convertGraphToTree sccFn (storeToTreeGraph g) = some t →
      t.rootComponents = []) := by
  have main : ∀ (sccFn : List (List Nat) → SccOut) (g : TreeGraph)
      (adj : List (List Nat)) (t : CompTree),
      treeAdjacency g = some adj → convertGraphToTree sccFn g = some t →
      ∀ j : Nat, j ∈ t.rootComponents ↔
        ∃ c, (sccFn adj).components.get? j = some c ∧
          c.any (fun i => indexToRoot g i) = true := by
    intro sccFn g adj t hadj hc j
    unfold convertGraphToTree at hc
    rw [hadj] at hc
    dsimp only [] at hc
    cases hk : componentsKeys g.nodes (sccFn adj).components with
    | none => rw [hk] at hc; cases hc
    | some keysList =>
      rw [hk] at hc
      dsimp only [] at hc
      by_cases hlen :
          (sccFn adj).components.length < (sccFn adj).adjacencyList.length
      · rw [if_pos hlen] at hc; cases hc
      · rw [if_neg hlen] at hc
        have ht := Option.some.inj hc
        subst ht
        simp only [List.mem_map, List.mem_filter]
        constructor
        · rintro ⟨⟨i, c⟩, ⟨hmem, hp⟩, rfl⟩
          rw [List.mk_mem_enum_iff_get?] at hmem
          exact ⟨c, hmem, hp⟩
        · rintro ⟨c, hget, hany⟩
          exact ⟨(j, c), ⟨List.mk_mem_enum_iff_get?.mpr hget, hany⟩, rfl⟩
  refine ⟨main, ?_⟩
  intro sccFn g t hc
  cases hadj : treeAdjacency (storeToTreeGraph g) with
  | none => unfold convertGraphToTree at hc; rw [hadj] at hc; cases hc
  | some adj =>
    have h := main sccFn (storeToTreeGraph g) adj t hadj hc
    have hempty : ∀ j : Nat, j ∉ t.rootComponents := by
      intro j hj
      obtain ⟨c, _, hany⟩ := (h j).mp hj
      rw [List.any_eq_true] at hany
      obtain ⟨i, _, hroot⟩ := hany
      rw [storeToTree_indexToRoot] at hroot
      cases hroot
    cases hroots : t.rootComponents with
    | nil => rfl
    | cons a l => exact absurd (hroots ▸ List.mem_cons_self a l) (hempty a)

/-- Output of the scc package on the one-node, one-self-loop adjacency
list `[[0]]` (a single component holding index 0, no condensed edges). -/
def sccOne : List (List Nat) → SccOut := fun _ => ⟨[[0]], [[]]⟩

/-- A one-node condenser input whose node is flagged as root. -/
def c8TreeGraph : TreeGraph := ⟨[⟨"r", some true⟩], [⟨"r", "r"⟩]⟩

/-- Condensed tree of `c8TreeGraph`. -/
def c8Tree1 : CompTree := ⟨[(0, (["r"], []))], [0]⟩

/-- A store graph with one root package in the caller's sense (a local,
`keepInPlace` node). -/
def c8Store : StoreGraph := ⟨[⟨"fookey", "foo", true, none, "/foo"⟩], []⟩

/-- Condensed tree `runScripts` computes for `c8Store`. -/
def c8Tree2 : CompTree := ⟨[(0, (["fookey"], []))], []⟩

/-- Witness for C8 at concrete inputs. -/
theorem convertGraphToTree_rootComponents_witness :
    ((0 : Nat) ∈ c8Tree1.rootComponents ↔
      ∃ c, (sccOne [[0]]).components.get? 0 = some c ∧
        c.any (fun i => indexToRoot c8TreeGraph i) = true) ∧
    c8Tree2.rootComponents = [] :=
  ⟨convertGraphToTree_rootComponents.1 sccOne c8TreeGraph [[0]] c8Tree1
      (by decide) (by decide) 0,
   convertGraphToTree_rootComponents.2 sccOne (addSelfLinks c8Store) c8Tree2
      (by decide)⟩

/-- C8 counterexample: an install input with a root package in the
caller's sense (a local, `keepInPlace` node) whose `runScripts` tree has
empty `rootComponents`: the installer never supplies an `isRoot` flag, so
no component of an install run is ever marked root and the claimed
non-emptiness fails. -/
theorem runScripts_rootComponents_cex :
    (c8Store.nodes.any (fun n => n.keepInPlace)) = true ∧
    convertGraphToTree sccOne (storeToTreeGraph (addSelfLinks c8Store)) =
      some c8Tree2 ∧
    c8Tree2.rootComponents = [] := by
  refine ⟨by decide, by decide, by decide⟩

theorem nodup_setAdd {α : Type} [DecidableEq α] (l : List α) (x : α)
    (h : l.Nodup) : (setAdd l x).Nodup := by
  by_cases hx : x ∈ l
  · simpa [setAdd, hx] using h
  · simp [setAdd, hx, List.nodup_append, h]

theorem nodup_foldl_setAdd {α : Type} [DecidableEq α] (l : List α) :
    ∀ acc : List α, acc.Nodup → (l.foldl setAdd acc).Nodup := by
  induction l with
  | nil => intro acc h; simpa using h
  | cons x rest ih => intro acc h; exact ih (setAdd acc x) (nodup_setAdd acc x h)

theorem nodup_dedupList {α : Type} [DecidableEq α] (l : List α) :
    (dedupList l).Nodup :=
  nodup_foldl_setAdd l [] List.nodup_nil

theorem binNameSet_nodup (n : StoreNode) : (binNameSet n).Nodup :=
  nodup_dedupList _

/-- Any value stored in a `foldl mapSet`-built map over the nodes is the
image of some node, or was in the seed map. -/
theorem mapGet_foldl_mapSet_values {β : Type} (f : StoreNode → β) :
    ∀ (ns : List StoreNode) (m : List (String × β)) (k : String) (v : β),
      mapGet (ns.foldl (fun m n => mapSet m n.key (f n)) m) k = some v →
      (∃ n ∈ ns, v = f n) ∨ mapGet m k = some v := by
  intro ns
  induction ns with
  | nil => intro m k v h; exact Or.inr h
  | cons n rest ih =>
    intro m k v h
    rcases ih (mapSet m n.key (f n)) k v h with hr | hbase
    · obtain ⟨n', hn', rfl⟩ := hr
      exact Or.inl ⟨n', List.mem_cons_of_mem n hn', rfl⟩
    · rw [mapGet_mapSet] at hbase
      by_cases hk : n.key = k
      · rw [if_pos hk] at hbase
        exact Or.inl ⟨n, List.mem_cons_self n rest, (Option.some.inj hbase).symm⟩
      · rw [if_neg hk] at hbase
        exact Or.inr hbase

/-- A `foldl mapSet`-built map over the nodes has an entry for every node
key (and keeps the seed's entries defined). -/
theorem isSome_mapGet_foldl {β : Type} (f : StoreNode → β) :
    ∀ (ns : List StoreNode) (m : List (String × β)) (k : String),
      (k ∈ ns.map (fun n => n.key) ∨ (mapGet m k).isSome = true) →
      (mapGet (ns.foldl (fun m n => mapSet m n.key (f n)) m) k).isSome = true := by
  intro ns
  induction ns with
  | nil =>
    intro m k h
    rcases h with h | h
    · simp at h
    · exact h
  | cons n rest ih =>
    intro m k h
    apply ih (mapSet m n.key (f n)) k
    rcases h with h | h
    · rw [List.map_cons, List.mem_cons] at h
      rcases h with h | h
      · right
        rw [mapGet_mapSet, if_pos h.symm]
        rfl
      · left; exact h
    · right
      rw [mapGet_mapSet]
      by_cases hk : n.key = k
      · rw [if_pos hk]; rfl
      · rw [if_neg hk]; exact h

theorem binsMapOf_values (g : StoreGraph) (k : String) (v : List String)
    (h : mapGet (binsMapOf g) k = some v) : v.Nodup := by
  rcases mapGet_foldl_mapSet_values binNameSet g.nodes [] k v h with
    ⟨n, _, rfl⟩ | hbase
  · exact binNameSet_nodup n
  · simp [mapGet] at hbase

theorem installedBinMap0_values (g : StoreGraph) (k : String)
    (v : List String) (h : mapGet (installedBinMap0 g) k = some v) : v = [] := by
  rcases mapGet_foldl_mapSet_values (fun _ => ([] : List String)) g.nodes [] k
      v h with ⟨n, _, rfl⟩ | hbase
  · rfl
  · simp [mapGet] at hbase

/-- Folding the collision step over a duplicate-free list of bin names none
of which is already installed produces no error and installs exactly the
union. -/
theorem binCollStep_foldl (ig : Option Bool) (src : String) :
    ∀ (bins cur es : List String), bins.Nodup → (∀ b ∈ bins, b ∉ cur) →
      ∃ res, bins.foldl (binCollStep ig src) (cur, es) = (res, es) ∧
        ∀ x, x ∈ res ↔ (x ∈ cur ∨ x ∈ bins) := by
  intro bins
  induction bins with
  | nil =>
    intro cur es _ _
    exact ⟨cur, rfl, by simp⟩
  | cons b rest ih =>
    intro cur es hnd hno
    have hb : b ∉ cur := hno b (List.mem_cons_self b rest)
    have hstep : binCollStep ig src (cur, es) b = (cur ++ [b], es) := by
      simp [binCollStep, setAdd, hb]
    rw [List.foldl_cons, hstep]
    have hnd' : rest.Nodup := (List.nodup_cons.mp hnd).2
    have hbn : b ∉ rest := (List.nodup_cons.mp hnd).1
    have hno' : ∀ x ∈ rest, x ∉ cur ++ [b] := by
      intro x hx
      simp only [List.mem_append, List.mem_singleton]
      rintro (hxc | rfl)
      · exact hno x (List.mem_cons_of_mem b hx) hxc
      · exact hbn hx
    obtain ⟨res, hre, hmem⟩ := ih (cur ++ [b]) es hnd' hno'
    refine ⟨res, hre, ?_⟩
    intro x
    rw [hmem x]
    constructor
    · rintro (hx | hx)
      · rcases List.mem_append.mp hx with h1 | h1
        · exact Or.inl h1
        · exact Or.inr (List.mem_cons.mpr (Or.inl (List.mem_singleton.mp h1)))
      · exact Or.inr (List.mem_cons_of_mem b hx)
    · rintro (hx | hx)
      · exact Or.inl (List.mem_append.mpr (Or.inl hx))
      · rcases List.mem_cons.mp hx with rfl | h1
        · exact Or.inl (List.mem_append.mpr (Or.inr (List.mem_singleton.mpr rfl)))
        · exact Or.inr h1

/-- The collision loop reports no error when every link's endpoints are in
the maps, the bins installed so far at each source are disjoint from every
remaining target's bins, and target bins are pairwise disjoint per
source. -/
theorem binCollAux_no_errors (bm : List (String × List String))
    (ig : Option Bool) (hvals : ∀ k v, mapGet bm k = some v → v.Nodup) :
    ∀ (links : List StoreLink) (installed : List (String × List String)),
      (∀ l ∈ links, (mapGet bm l.target).isSome = true ∧
        (mapGet installed l.source).isSome = true) →
      (∀ l ∈ links, ∀ b ∈ (mapGet bm l.target).getD [],
        b ∉ (mapGet installed l.source).getD []) →
      List.Pairwise (fun l1 l2 => l1.source = l2.source →
        ∀ b ∈ (mapGet bm l1.target).getD [],
          b ∉ (mapGet bm l2.target).getD []) links →
      binCollAux bm ig links installed = some [] := by
  intro links
  induction links with
  | nil => intro installed _ _ _; rfl
  | cons l rest ih =>
    intro installed hks hsafe hdisj
    obtain ⟨hkt, hksrc⟩ := hks l (List.mem_cons_self l rest)
    obtain ⟨tb, htb⟩ := Option.isSome_iff_exists.mp hkt
    simp only [binCollAux]
    cases tb with
    | nil =>
      rw [htb]
      dsimp only []
      exact ih installed (fun l' hl' => hks l' (List.mem_cons_of_mem l hl'))
        (fun l' hl' => hsafe l' (List.mem_cons_of_mem l hl'))
        (List.pairwise_cons.mp hdisj).2
    | cons b bs =>
      rw [htb]
      obtain ⟨cur, hcur⟩ := Option.isSome_iff_exists.mp hksrc
      rw [hcur]
      dsimp only []
      have hnd : (b :: bs).Nodup := hvals _ _ htb
      have hsafe0 : ∀ x ∈ (b :: bs), x ∉ cur := by
        have hh := hsafe l (List.mem_cons_self l rest)
        rw [htb, hcur] at hh
        simpa using hh
      obtain ⟨res, hre, hmem⟩ :=
        binCollStep_foldl ig l.source (b :: bs) cur [] hnd hsafe0
      rw [hre]
      dsimp only []
      have hrec : binCollAux bm ig rest (mapSet installed l.source res) =
          some [] := by
        apply ih
        · intro l' hl'
          refine ⟨(hks l' (List.mem_cons_of_mem l hl')).1, ?_⟩
          rw [mapGet_mapSet]
          by_cases hs : l.source = l'.source
          · rw [if_pos hs]; rfl
          · rw [if_neg hs]; exact (hks l' (List.mem_cons_of_mem l hl')).2
        · intro l' hl' x hx
          rw [mapGet_mapSet]
          by_cases hs : l.source = l'.source
          · rw [if_pos hs]
            simp only [Option.getD_some]
            rw [hmem x]
            rintro (hxc | hxtb)
            · have hsf := hsafe l' (List.mem_cons_of_mem l hl') x hx
              have hcur' : mapGet installed l'.source = some cur := by
                rw [← hs]; exact hcur
              rw [hcur'] at hsf
              simp only [Option.getD_some] at hsf
              exact hsf hxc
            · have hd := (List.pairwise_cons.mp hdisj).1 l' hl'
              exact hd hs x (by rw [htb]; simpa using hxtb) hx
          · rw [if_neg hs]
            exact hsafe l' (List.mem_cons_of_mem l hl') x hx
        · exact (List.pairwise_cons.mp hdisj).2
      rw [hrec]
      rfl

/-- C10: bin-conflict validation considers only the links of the caller's
input graph — self links are added only after `validateInput` returns.
For every input passing the location and graph checks, with valid bin
names, link endpoints that are node keys, and the bins of link targets
pairwise disjoint per source over the declared links — a condition that
says nothing about a node's own `bins` versus those of its targets —
validation succeeds even with `ignoreBinConflicts = false`, and
`installLocalStore` never throws a `Several different scripts called`
error (or any other). -/
theorem validateInput_ignores_self_bins (fs : Fs) (g : StoreGraph)
    (loc : String)
    (hloc : getLocationError fs loc = none)
    (hgr : getGraphError fs g = none)
    (hnames : ∀ n ∈ g.nodes, binNameErrors n = [])
    (hkeys : ∀ l ∈ g.links, l.source ∈ keysOf g ∧ l.target ∈ keysOf g)
    (hdisj : List.Pairwise (fun l1 l2 => l1.source = l2.source →
      ∀ b ∈ (mapGet (binsMapOf g) l1.target).getD [],
        b ∉ (mapGet (binsMapOf g) l2.target).getD []) g.links) :
    validateInput fs g loc (some false) = some none ∧
    ∀ (sccFn : List (List Nat) → SccOut) (a : List FsAction) (e : String),
      installLocalStore sccFn fs g loc (some ⟨none, some false⟩) ≠
        (a, Outcome.err e) := by
  have hbin : getBinError g (some false) = some none := by
    have h1 : (g.nodes.map binNameErrors).filter
        (fun a => decide (0 < a.length)) = [] := by
      rw [List.filter_eq_nil]
      intro a ha
      obtain ⟨n, hn, rfl⟩ := List.mem_map.mp ha
      rw [hnames n hn]
      simp
    have h2 : binCollAux (binsMapOf g) (some false) g.links
        (installedBinMap0 g) = some [] := by
      apply binCollAux_no_errors (binsMapOf g) (some false)
        (fun k v => binsMapOf_values g k v)
      · intro l hl
        exact ⟨isSome_mapGet_foldl binNameSet g.nodes [] l.target
            (Or.inl (hkeys l hl).2),
          isSome_mapGet_foldl (fun _ => []) g.nodes [] l.source
            (Or.inl (hkeys l hl).1)⟩
      · intro l hl b hb
        cases hc : mapGet (installedBinMap0 g) l.source with
        | none => simp [hc]
        | some v =>
          have hv0 := installedBinMap0_values g l.source v hc
          subst hv0
          simp [hc]
      · exact hdisj
    unfold getBinError
    rw [h1, h2]
  have hv : validateInput fs g loc (some false) = some none := by
    unfold validateInput
    rw [hloc]
    dsimp only []
    rw [hgr]
    dsimp only []
    exact hbin
  refine ⟨hv, ?_⟩
  intro sccFn a e heq
  unfold installLocalStore at heq
  have hopt : ((some ⟨none, some false⟩ : Option Options).bind
      fun o => o.ignoreBinConflicts) = some false := rfl
  rw [hopt, hv] at heq
  dsimp only [] at heq
  cases hps : installPhases sccFn fs g loc
      ((some ⟨none, some false⟩ : Option Options).bind
        fun o => o.filesToExclude) with
  | none => rw [hps] at heq; simp at heq
  | some acts => rw [hps] at heq; simp at heq

/-- File system of the self-bins scenario: just the empty store. -/
def c10Fs : Fs := [("/store", FsTree.dir [])]

/-- Graph of the self-bins scenario: node `a` exposes a bin name `x`, its
link target `b` exposes the same bin name `x`, and no self link is
declared. -/
def c10Graph : StoreGraph :=
  ⟨[⟨"a", "a", false, some [("x", "bin.js")], "/pa"⟩,
    ⟨"b", "b", false, some [("x", "bin.js")], "/pb"⟩],
   [⟨"a", "b"⟩]⟩

/-- Witness for C10: the own-bins/target-bins name clash passes validation
with `ignoreBinConflicts = false`. -/
theorem validateInput_ignores_self_bins_witness :
    validateInput c10Fs c10Graph "/store" (some false) = some none ∧
    installLocalStore sccTrivial c10Fs c10Graph "/store"
        (some ⟨none, some false⟩) ≠
      ([], Outcome.err ("Several different scripts called \"x\" need to be " ++
        "installed at the same location (a).")) :=
  ⟨(validateInput_ignores_self_bins c10Fs c10Graph "/store" (by decide)
      (by decide) (by decide) (by decide) (by decide)).1,
   (validateInput_ignores_self_bins c10Fs c10Graph "/store" (by decide)
      (by decide) (by decide) (by decide) (by decide)).2 sccTrivial []
      ("Several different scripts called \"x\" need to be " ++
        "installed at the same location (a).")⟩
